import Mathlib

/-!
# Verification of the ce-scripts batch importers

Shallow embedding of the CSV-to-API batch-importer scripts of this
repository (pipelines, incidents, GitLab onboarding, deployments,
set-pull-services, Confluence comments exporter) together with proofs
about their retry policies, field parsing, timestamp normalization,
file ordering, throttling, resume state and dry-run behaviour.

Strings are modelled as `List Char`; JavaScript string operations
(`trim`, `toLowerCase`, `split`, `replace`) are embedded explicitly.
`JSON.parse` (an external library call) is modelled by an executable
fuel-based JSON parser over a JSON value type; it supports the common
escapes but not `\uXXXX` escapes, which none of the inputs at issue
use.
-/

namespace CeScripts

/-! ## JavaScript string primitives -/

/-- Whitespace for the purposes of `String.prototype.trim` (the ASCII
whitespace characters; the Unicode-only whitespace code points play no
role in any input considered here). -/
def jsWs (c : Char) : Bool :=
  c = ' ' ∨ c = '\t' ∨ c = '\n' ∨ c = '\r' ∨ c = Char.ofNat 11 ∨ c = Char.ofNat 12

/-- `String.prototype.trim` on a character list. -/
def jsTrimL (l : List Char) : List Char :=
  ((l.dropWhile jsWs).reverse.dropWhile jsWs).reverse

/-- ASCII `String.prototype.toLowerCase` on one character. -/
def asciiLower (c : Char) : Char :=
  if 'A' ≤ c ∧ c ≤ 'Z' then Char.ofNat (c.toNat + 32) else c

/-- ASCII `String.prototype.toLowerCase`. -/
def jsLowerL (l : List Char) : List Char := l.map asciiLower

/-! ## A model of `JSON.parse`

JSON values; numbers are kept as their source lexeme (the scripts never
compute with parsed numbers, they only re-serialize or stringify them). -/

inductive JVal where
  | null : JVal
  | bool (b : Bool) : JVal
  | num (lexeme : List Char) : JVal
  | str (s : List Char) : JVal
  | arr (items : List JVal) : JVal
  | obj (fields : List (List Char × JVal)) : JVal

/-- `x === null` (the only JS null-test the scripts perform on parsed JSON). -/
def JVal.isNull : JVal → Bool
  | JVal.null => true
  | _ => false

/-- Skip JSON insignificant whitespace. -/
def skipWs : List Char → List Char
  | c :: rest => if c = ' ' ∨ c = '\t' ∨ c = '\n' ∨ c = '\r' then skipWs rest else c :: rest
  | [] => []

/-- JSON string escape characters (`\uXXXX` is not modelled). -/
def parseEscape (c : Char) : Option Char :=
  if c = '"' then some '"'
  else if c = '\\' then some '\\'
  else if c = '/' then some '/'
  else if c = 'n' then some '\n'
  else if c = 't' then some '\t'
  else if c = 'r' then some '\r'
  else if c = 'b' then some (Char.ofNat 8)
  else if c = 'f' then some (Char.ofNat 12)
  else none

/-- Parse the body of a JSON string after the opening quote; returns the
decoded characters and the remaining input after the closing quote. -/
def parseStrBody : List Char → Option (List Char × List Char)
  | [] => none
  | c :: rest =>
    if c = '"' then some ([], rest)
    else if c = '\\' then
      match rest with
      | [] => none
      | e :: rest2 => do
        let ec ← parseEscape e
        let (s, r) ← parseStrBody rest2
        pure (ec :: s, r)
    else do
      let (s, r) ← parseStrBody rest
      pure (c :: s, r)

/-- Characters that may occur in a JSON number lexeme. -/
def numChar (c : Char) : Bool :=
  c.isDigit || c = '-' || c = '+' || c = '.' || c = 'e' || c = 'E'

mutual

/-- Fuel-based JSON value parser: one JSON value plus the remaining input. -/
def parseJVal : Nat → List Char → Option (JVal × List Char)
  | 0, _ => none
  | Nat.succ fuel, l =>
    match skipWs l with
    | [] => none
    | c :: rest =>
      if c = '"' then (parseStrBody rest).map (fun p => (JVal.str p.1, p.2))
      else if c = '[' then
        match skipWs rest with
        | ']' :: r => some (JVal.arr [], r)
        | l2 => (parseArrItems fuel l2).map (fun p => (JVal.arr p.1, p.2))
      else if c = '{' then
        match skipWs rest with
        | '}' :: r => some (JVal.obj [], r)
        | l2 => (parseObjFields fuel l2).map (fun p => (JVal.obj p.1, p.2))
      else if c = 'n' then
        match rest with
        | 'u' :: 'l' :: 'l' :: r => some (JVal.null, r)
        | _ => none
      else if c = 't' then
        match rest with
        | 'r' :: 'u' :: 'e' :: r => some (JVal.bool true, r)
        | _ => none
      else if c = 'f' then
        match rest with
        | 'a' :: 'l' :: 's' :: 'e' :: r => some (JVal.bool false, r)
        | _ => none
      else if c.isDigit ∨ c = '-' then
        let lex := (c :: rest).takeWhile numChar
        some (JVal.num lex, (c :: rest).drop lex.length)
      else none

/-- Comma-separated JSON array items up to the closing bracket. -/
def parseArrItems : Nat → List Char → Option (List JVal × List Char)
  | 0, _ => none
  | Nat.succ fuel, l => do
    let (v, r) ← parseJVal fuel l
    match skipWs r with
    | ',' :: r2 => (parseArrItems fuel r2).map (fun p => (v :: p.1, p.2))
    | ']' :: r2 => some ([v], r2)
    | _ => none

/-- Comma-separated JSON object fields up to the closing brace. -/
def parseObjFields : Nat → List Char → Option (List (List Char × JVal) × List Char)
  | 0, _ => none
  | Nat.succ fuel, l =>
    match skipWs l with
    | c :: rest =>
      if c = '"' then do
        let (k, r) ← parseStrBody rest
        match skipWs r with
        | ':' :: r2 => do
          let (v, r3) ← parseJVal fuel r2
          match skipWs r3 with
          | ',' :: r4 => (parseObjFields fuel r4).map (fun p => ((k, v) :: p.1, p.2))
          | '}' :: r4 => some ([(k, v)], r4)
          | _ => none
        | _ => none
      else none
    | [] => none

end

/-- `JSON.parse` on a whole input: the parse must consume everything but
trailing whitespace. -/
def jsonParse (s : List Char) : Option JVal :=
  match parseJVal (2 * s.length + 2) s with
  | some (v, r) => if skipWs r = [] then some v else none
  | none => none

/-! ## List-valued field parsing

Two importers parse list-valued columns: `parseServices` of the
incidents importer (src/unnamed/part_001) and `parseServices` of the
set-pull-services importer (tail of
src/backfill-scripts/dx-onboarding/gitlabOnboardingBackfill.js). -/

mutual

/-- `String(x)`: the JavaScript string coercion applied by `unique` to
array elements (numbers are rendered by their source lexeme; an array
joins its elements with commas; an object renders as "[object Object]"). -/
def jsString : JVal → List Char
  | JVal.null => "null".data
  | JVal.bool true => "true".data
  | JVal.bool false => "false".data
  | JVal.num lex => lex
  | JVal.str s => s
  | JVal.arr xs => jsStringJoin xs
  | JVal.obj _ => "[object Object]".data

/-- `Array.prototype.toString`: elements joined with commas. -/
def jsStringJoin : List JVal → List Char
  | [] => []
  | [x] => jsString x
  | x :: y :: rest => jsString x ++ ',' :: jsStringJoin (y :: rest)

end

/-- Split on every character satisfying `p`, keeping empty fields, as
`String.prototype.split` with a single-character-class regex does. -/
def jsSplitOn (p : Char → Bool) (l : List Char) : List (List Char) :=
  List.splitOnP p l

/-- `parseServices` of the incidents importer: a trimmed value starting
with `[` goes through `JSON.parse` (non-array or failed parses give
`[]`); otherwise the text is split on comma/semicolon/pipe, entries are
trimmed and empty entries dropped.  Delimited entries are injected into
`JVal.str` so both branches share a result type, mirroring the untyped
JS array. No de-duplication is performed. -/
def parseServicesInc (val : String) : List JVal :=
  let s := jsTrimL val.data
  if s = [] then []
  else
    match s with
    | '[' :: _ =>
      (match jsonParse s with
       | some (JVal.arr items) => items
       | _ => [])
    | _ =>
      (((jsSplitOn (fun c => c = ';' ∨ c = ',' ∨ c = '|') s).map jsTrimL).filter
        (fun x => ¬ x = [])).map JVal.str

/-- `tryJson` of the set-pull-services importer: the trimmed value must
start with `[` and end with `]`; a successful `JSON.parse` returning an
array is kept, anything else gives `null`. -/
def tryJsonSP (val : List Char) : Option (List JVal) :=
  let s := jsTrimL val
  match s with
  | '[' :: _ =>
    if s.getLast? = some ']' then
      match jsonParse s with
      | some (JVal.arr items) => some items
      | _ => none
    else none
  | _ => none

/-- First-occurrence-order de-duplication with the set of already seen
elements made explicit. -/
def dedupFirstAux (seen : List (List Char)) : List (List Char) → List (List Char)
  | [] => []
  | x :: xs => if x ∈ seen then dedupFirstAux seen xs else x :: dedupFirstAux (x :: seen) xs

/-- First-occurrence-order de-duplication, as `Array.from(new Set(xs))`. -/
def dedupFirst (l : List (List Char)) : List (List Char) :=
  dedupFirstAux [] l

/-- `unique` of the set-pull-services importer: drop nulls, stringify,
strip NUL characters, trim, drop empties, then de-duplicate keeping the
first occurrence (JS `Set` iteration order is insertion order). -/
def uniqueSP (arr : List JVal) : List (List Char) :=
  dedupFirst
    ((((arr.filter (fun x => ¬ JVal.isNull x)).map
        (fun x => jsTrimL ((jsString x).filter (fun c => ¬ c = Char.ofNat 0)))).filter
      (fun x => ¬ x = [])))

/-- `x.trim().replace(/^"(.*)"$/, "$1")`: strip one pair of surrounding
double quotes when both are present (the `.`-excludes-newline subtlety
of the regex is immaterial for the inputs considered and not modelled). -/
def stripQuotes (l : List Char) : List Char :=
  match l with
  | '"' :: rest =>
    if rest = [] then l
    else if rest.getLast? = some '"' then rest.dropLast
    else l
  | _ => l

/-- `parseServices` of the set-pull-services importer: JSON is attempted
on the primary then the fallback column; if neither yields a non-empty
array, the first truthy raw value is split on pipe/comma, entries
trimmed, unquoted and empties dropped; the result is passed through
`unique`. -/
def parseServicesSP (primary fallback : String) : List String :=
  let o1 : List JVal := (tryJsonSP primary.data).getD []
  let o2 : List JVal := if o1.isEmpty then (tryJsonSP fallback.data).getD [] else o1
  let o3 : List JVal :=
    if o2.isEmpty then
      let raw : List Char :=
        if ¬ primary.data = [] then primary.data
        else if ¬ fallback.data = [] then fallback.data
        else []
      let s := jsTrimL raw
      if ¬ s = [] then
        (((jsSplitOn (fun c => c = '|' ∨ c = ',') s).map
            (fun x => stripQuotes (jsTrimL x))).filter (fun x => ¬ x = [])).map JVal.str
      else []
    else o2
  (uniqueSP o3).map (fun l => String.mk l)

/-! ## Directory ordering (pipelines importer)

`numericSortFiles` of src/backfill-scripts/pipelines/pipelinesBackfill.js:
filter the directory listing to `.csv` files (case-insensitively), then
sort by the number formed by the first run of digits in each filename
(`(name.match(/\d+/) || ['0'])[0]`).  The final `path.join(dir, ·)`
prefixes every name with the same directory and is omitted here. -/

/-- The first maximal run of digits in a filename, as `name.match(/\d+/)`. -/
def firstDigitRun : List Char → Option (List Char)
  | [] => none
  | c :: rest =>
    if c.isDigit then some ((c :: rest).takeWhile Char.isDigit)
    else firstDigitRun rest

/-- Decimal value of a digit run (the `Number(...)` conversion). -/
def digitsToNat (ds : List Char) : Nat :=
  ds.foldl (fun acc c => 10 * acc + (c.toNat - '0'.toNat)) 0

/-- Sort key: the first number in the filename, `0` when there is none. -/
def fileNumber (name : String) : Nat :=
  match firstDigitRun name.data with
  | some ds => digitsToNat ds
  | none => 0

/-- `f.toLowerCase().endsWith('.csv')`. -/
def isCsvName (name : String) : Bool :=
  List.isSuffixOf ".csv".data (jsLowerL name.data)

/-- `numericSortFiles`: filter to `.csv` names, sort ascending by
`fileNumber` (a comparator sort, embedded as a stable insertion sort). -/
def numericSortFiles (files : List String) : List String :=
  List.insertionSort (fun a b => fileNumber a ≤ fileNumber b) (files.filter isCsvName)

/-! ## Throttled main loop (pipelines and incidents importers)

Both src/backfill-scripts/pipelines/pipelinesBackfill.js and
src/unnamed/part_001 run
`delayMs = Math.max(0, Math.floor(1000 / Math.max(1, RPS)))` and, for
each record, perform one delivery attempt (dry or live, success or
failure alike) followed by `await sleep(delayMs)`. -/

/-- The computed inter-call delay in milliseconds. -/
def delayMs (rps : Nat) : Nat := max 0 (1000 / max 1 rps)

/-- Observable events of the main loop. -/
inductive Ev (R : Type) where
  | attempt (r : R) : Ev R
  | sleep (ms : Nat) : Ev R
deriving DecidableEq

/-- Event trace of the main loop over the record list. -/
def mainTrace {R : Type} (rps : Nat) : List R → List (Ev R)
  | [] => []
  | r :: rest => Ev.attempt r :: Ev.sleep (delayMs rps) :: mainTrace rps rest

/-- The records attempted by a trace, in order. -/
def attemptsOf {R : Type} : List (Ev R) → List R
  | [] => []
  | Ev.attempt r :: rest => r :: attemptsOf rest
  | Ev.sleep _ :: rest => attemptsOf rest

/-- Start times of the delivery attempts in a trace: attempts are
instantaneous and sleeps advance the clock. -/
def attemptTimes {R : Type} : List (Ev R) → Nat → List Nat
  | [], _ => []
  | Ev.attempt _ :: rest, t => t :: attemptTimes rest t
  | Ev.sleep ms :: rest, t => attemptTimes rest (t + ms)

/-- The missing-token configuration check of the pipelines and incidents
importers: `if (!DX_TOKEN && !DRY_RUN) { ...; process.exit(1); }`. -/
def missingTokenAborts (token : String) (dryRun : Bool) : Bool :=
  decide (token = "") && !dryRun

/-! ## Resume marker (GitLab onboarding backfill)

The main loop of
src/backfill-scripts/dx-onboarding/gitlabOnboardingBackfill.js runs, for
each (group, user) unit in order: `writeResume(group, user)` and then
the unit's fetch-and-send work; the catch branch leaves the marker
untouched, and only the success path calls `clearResume()` after the
last unit. -/

/-- Primitive stable-storage / delivery operations in program order. -/
inductive ROp (α : Type) where
  | write (u : α) : ROp α
  | process (u : α) : ROp α
  | clear : ROp α
deriving DecidableEq

/-- The operation sequence of the backfill main loop: marker write
before each unit's processing, marker clear after the final unit. -/
def gitlabOps {α : Type} (units : List α) : List (ROp α) :=
  (units.flatMap (fun u => [ROp.write u, ROp.process u])) ++ [ROp.clear]

/-- Execute operations; the state is the resume-marker content and the
list of fully completed units. -/
def execOps {α : Type} : List (ROp α) → Option α × List α → Option α × List α
  | [], st => st
  | ROp.write u :: rest, (_, done) => execOps rest (some u, done)
  | ROp.process u :: rest, (m, done) => execOps rest (m, done ++ [u])
  | ROp.clear :: rest, (_, done) => execOps rest (none, done)

/-- State left behind by a crash after the first `n` primitive
operations of a run started with no marker. -/
def crashState {α : Type} (units : List α) (n : Nat) : Option α × List α :=
  execOps ((gitlabOps units).take n) (none, [])

/-! ## Retry loops driven by sink responses (C1)

`fetchComments` of the Confluence comments exporter
(src/unnamed/part_002) and `getEarliestMergedMRs` of the GitLab
onboarding backfill both retry on HTTP 429, sleeping the parsed
`retry-after` (default 60 s).  They are embedded as functions of the
list of responses the sink returns to successive attempts: each retry
consumes the next response, and exhausting the list while still
retrying yields `none`. -/

/-- One HTTP response as the retry logic observes it. -/
structure Resp where
  status : Nat
  retryAfter : Option Nat := none
deriving DecidableEq

inductive FetchOutcome where
  | ok : FetchOutcome
  | skipped401 : FetchOutcome
  | failedOther : FetchOutcome
deriving DecidableEq

/-- `fetchComments`: 429 retries unconditionally after sleeping
retry-after seconds; 503/504 retries only while `attempt <= 3` after
sleeping `30 * attempt` seconds; 401 skips with an empty result; any
other non-2xx logs and returns empty; 2xx succeeds.  Returns the
milliseconds slept and the outcome. -/
def fetchComments : List Resp → Nat → List Nat × Option FetchOutcome
  | [], _ => ([], none)
  | r :: rest, attempt =>
    if r.status = 429 then
      let w := (r.retryAfter.getD 60) * 1000
      let p := fetchComments rest (attempt + 1)
      (w :: p.1, p.2)
    else if (r.status = 503 ∨ r.status = 504) ∧ attempt ≤ 3 then
      let w := 30 * attempt * 1000
      let p := fetchComments rest (attempt + 1)
      (w :: p.1, p.2)
    else if r.status = 401 then ([], some FetchOutcome.skipped401)
    else if ¬ (200 ≤ r.status ∧ r.status < 300) then ([], some FetchOutcome.failedOther)
    else ([], some FetchOutcome.ok)

inductive GLOutcome where
  | ok : GLOutcome
  | tooManyRetries : GLOutcome
  | httpError : GLOutcome
deriving DecidableEq

/-- `getEarliestMergedMRs`: on 429 it sleeps the parsed retry-after
(default 60 s) and then throws `Too many retries after 429` when
`attempt >= 5`, otherwise retries; any other non-2xx throws; 2xx
succeeds. -/
def getEarliestMergedMRs : List Resp → Nat → List Nat × Option GLOutcome
  | [], _ => ([], none)
  | r :: rest, attempt =>
    if r.status = 429 then
      let w := (r.retryAfter.getD 60) * 1000
      if 5 ≤ attempt then ([w], some GLOutcome.tooManyRetries)
      else
        let p := getEarliestMergedMRs rest (attempt + 1)
        (w :: p.1, p.2)
    else if 200 ≤ r.status ∧ r.status < 300 then ([], some GLOutcome.ok)
    else ([], some GLOutcome.httpError)

/-! ## Exponential backoff retry (set-pull-services importer)

`withRetry` (tail of
src/backfill-scripts/dx-onboarding/gitlabOnboardingBackfill.js, the
setPullSsvicesBackfill script) loops: call the delivery function; on an
error, classify `err.response.status` as retryable
(`!status || status >= 500 || status === 429 || status === 408`),
rethrow when non-retryable or when `attempt >= max`, otherwise sleep
`min(30000, baseDelay * 2^(attempt-1)) + Math.floor(Math.random()*250)`
and loop.  The call site passes `max = 5`, `baseDelay = 500`. -/

/-- Outcome of one delivery attempt as the catch block sees it
(`none` models a network error without a response). -/
inductive Att where
  | ok : Att
  | err (status : Option Nat) : Att
deriving DecidableEq

/-- Result of `withRetry`: a return, a rethrown failure, or `pending`
when the modelled attempt outcomes are exhausted mid-loop. -/
inductive WRes where
  | success : WRes
  | thrown (status : Option Nat) : WRes
  | pending : WRes
deriving DecidableEq

/-- The retry classification of a failure status. -/
def retryable : Option Nat → Bool
  | none => true
  | some s => decide (500 ≤ s) || decide (s = 429) || decide (s = 408)

/-- `withRetry` driven by the attempt outcomes, with the random jitters
supplied as a list (one consumed per backoff sleep); returns the backoff
sleeps performed and the result.  `attempt` is the counter, 0 at entry. -/
def withRetryGo (base maxA : Nat) : List Att → List Nat → Nat → List Nat × WRes
  | [], _, _ => ([], WRes.pending)
  | Att.ok :: _, _, _ => ([], WRes.success)
  | Att.err s :: rest, jitters, attempt =>
    let attempt1 := attempt + 1
    if retryable s && decide (attempt1 < maxA) then
      let backoff := min 30000 (base * 2 ^ (attempt1 - 1)) + jitters.headD 0
      let p := withRetryGo base maxA rest jitters.tail attempt1
      (backoff :: p.1, p.2)
    else ([], WRes.thrown s)

/-- `withRetry` as called by the set-pull-services worker. -/
def withRetry (base maxA : Nat) (atts : List Att) (jitters : List Nat) : List Nat × WRes :=
  withRetryGo base maxA atts jitters 0

/-! ## Dry-run delivery (C8)

`postDX` of the pipelines importer
(src/backfill-scripts/pipelines/pipelinesBackfill.js) and
`processRow`/`buildPayload` of the deployments importer
(src/deploymentsBackfill.js). -/

/-- Observable effects of `postDX`. -/
inductive Eff where
  | netPost (url auth body : String) : Eff
  | logLine (line : String) : Eff
deriving DecidableEq

/-- The value `postDX` resolves to. -/
structure SendResult where
  ok : Bool
  status : Nat
  body : String
deriving DecidableEq

/-- `postDX`: `body` is the serialized payload `JSON.stringify(payload)`
(both branches use this same expression on the same payload object);
`resp` is the response a live POST would receive.  Dry-run logs the
would-be request and reports synthetic success with no network effect;
live POSTs the payload with the bearer token. -/
def postDX (dryRun : Bool) (apiUrl token body : String) (resp : Nat × String) :
    List Eff × SendResult :=
  if dryRun then
    ([Eff.logLine ("[DRY_RUN] POST " ++ apiUrl ++ " -> " ++ body)],
     { ok := true, status := 0, body := "DRY_RUN" })
  else
    ([Eff.netPost apiUrl token body],
     { ok := decide (200 ≤ resp.1) && decide (resp.1 < 300), status := resp.1, body := resp.2 })

/-! ### The deployments importer row pipeline -/

/-- JS object assignment `out[k] = v`: overwrite an existing key or
append. -/
def setKey (acc : List (String × String)) (k v : String) : List (String × String) :=
  if acc.any (fun p => p.1 = k) then acc.map (fun p => if p.1 = k then (k, v) else p)
  else acc ++ [(k, v)]

/-- `normalize`: trim and lower-case every header. -/
def normalizeRow (row : List (String × String)) : List (String × String) :=
  row.foldl (fun acc p => setKey acc (String.mk (jsLowerL (jsTrimL p.1.data))) p.2) []

/-- Field access `r.k`, `none` when the column is absent. -/
def getF (r : List (String × String)) (k : String) : Option String :=
  (r.find? (fun p => p.1 = k)).map (fun p => p.2)

/-- Field access under JS truthiness: an absent or empty value is falsy. -/
def getTruthy (r : List (String × String)) (k : String) : Option String :=
  match getF r k with
  | some s => if s = "" then none else some s
  | none => none

/-- `String.prototype.trim` on `String`. -/
def trimS (s : String) : String := String.mk (jsTrimL s.data)

/-- `parseBool` of the deployments importer. -/
def parseBoolD (val : Option String) : Option Bool :=
  match val with
  | none => none
  | some v =>
    let s := jsLowerL (jsTrimL v.data)
    if s = "true".data ∨ s = "1".data ∨ s = "yes".data ∨ s = "y".data then some true
    else if s = "false".data ∨ s = "0".data ∨ s = "no".data ∨ s = "n".data then some false
    else none

/-- `parseMergeShas`: split on comma/semicolon/pipe, trim, drop empties;
`undefined` for a falsy input or when nothing remains. -/
def parseMergeShas (val : Option String) : Option (List String) :=
  match val with
  | none => none
  | some v =>
    if v = "" then none
    else
      let parts := ((jsSplitOn (fun c => c = ';' ∨ c = ',' ∨ c = '|') v.data).map
        jsTrimL).filter (fun x => ¬ x = [])
      if parts = [] then none else some (parts.map String.mk)

/-- `tryJson`: `undefined` for falsy input or a failed parse. -/
def tryJsonD (val : Option String) : Option JVal :=
  match val with
  | none => none
  | some v => if v = "" then none else jsonParse v.data

/-- JS truthiness of a parsed JSON value (`if (md) ...`): a number is
falsy exactly when its mantissa has no non-zero digit. -/
def jvalTruthy : JVal → Bool
  | JVal.null => false
  | JVal.bool b => b
  | JVal.num lex =>
    ¬ (lex.takeWhile (fun c => ¬ (c = 'e' ∨ c = 'E'))).all
        (fun c => ¬ (c.isDigit ∧ ¬ c = '0'))
  | JVal.str s => ¬ s = []
  | JVal.arr _ => true
  | JVal.obj _ => true

/-- The normalized payload `buildPayload` constructs, fields in the
source's assignment order (which is also `JSON.stringify`'s key order). -/
structure DPayload where
  deployed_at : String
  service : String
  commit_sha : Option String := none
  repository : Option String := none
  merge_commit_shas : Option (List String) := none
  reference_id : Option String := none
  source_url : Option String := none
  source_name : Option String := none
  metadata : Option JVal := none
  integration_branch : Option String := none
  success : Option Bool := none
  environment : Option String := none

/-- `buildPayload` of the deployments importer: required `deployed_at`
and `service` (throwing on falsy values), optional trimmed string
fields, merge-sha list, parsed-JSON metadata kept only when truthy, and
the boolean coercion of `success`. -/
def buildPayloadD (row : List (String × String)) : Except String DPayload :=
  let r := normalizeRow row
  match getTruthy r "deployed_at" with
  | none => Except.error "Missing deployed_at"
  | some da =>
    match getTruthy r "service" with
    | none => Except.error "Missing service"
    | some sv =>
      Except.ok
        { deployed_at := trimS da
          service := trimS sv
          commit_sha := (getTruthy r "commit_sha").map trimS
          repository := (getTruthy r "repository").map trimS
          merge_commit_shas := parseMergeShas (getF r "merge_commit_shas")
          reference_id := (getTruthy r "reference_id").map trimS
          source_url := (getTruthy r "source_url").map trimS
          source_name := (getTruthy r "source_name").map trimS
          metadata :=
            match tryJsonD (getF r "metadata") with
            | some j => if jvalTruthy j then some j else none
            | none => none
          integration_branch := (getTruthy r "integration_branch").map trimS
          success := parseBoolD (getF r "success")
          environment := (getTruthy r "environment").map trimS }

/-- Effects of the deployments importer: the posted payload is carried
structurally (the live run sends `JSON.stringify` of exactly this
payload). -/
inductive DEff where
  | netPostD (url token : String) (payload : DPayload) : DEff

/-- The value `processRow` resolves to. -/
structure RowResult where
  ok : Bool
  status : Nat
  body : String
  payload : DPayload

/-- `rowBaseUrl.replace(/\/$/, '')`. -/
def stripTrailingSlash (s : String) : String :=
  if s.data.getLast? = some '/' then String.mk s.data.dropLast else s

/-- `processRow` of the deployments importer: per-row token and base-url
overrides with trimming and truthiness fallbacks, the two configuration
throws, then `buildPayload`; dry-run resolves with synthetic success and
the built payload, a live run POSTs the same payload object. -/
def processRow (row : List (String × String)) (baseUrl defaultToken : String)
    (dryRun : Bool) (resp : Nat × String) : Except String (List DEff × RowResult) :=
  let r := normalizeRow row
  let token := trimS ((getTruthy r "token").getD defaultToken)
  let rowBaseUrl := trimS ((getTruthy r "base_url").getD baseUrl)
  if rowBaseUrl = "" then Except.error "Base URL not provided"
  else if token = "" then Except.error "Token not provided"
  else
    match buildPayloadD row with
    | Except.error e => Except.error e
    | Except.ok payload =>
      if dryRun then
        Except.ok ([], { ok := true, status := 0, body := "DRY_RUN", payload := payload })
      else
        Except.ok
          ([DEff.netPostD (stripTrailingSlash rowBaseUrl ++ "/api/deployments.create")
              token payload],
           { ok := decide (200 ≤ resp.1) && decide (resp.1 < 300), status := resp.1,
             body := resp.2, payload := payload })

/-- A sample deployments row and its built payload, used to witness the
dry-run equivalence theorem at a concrete input. -/
def sampleRow : List (String × String) := [("deployed_at", "2024-01-01"), ("service", "svc")]

/-- The payload `buildPayload` produces for `sampleRow`. -/
def samplePayload : DPayload := { deployed_at := "2024-01-01", service := "svc" }

/-! ## Timestamp normalization (incidents importer)

`toIso8601Z` of src/unnamed/part_001: trim the value, pass through
values that contain a `t`/`T` and end in a `Z` or a numeric offset,
complete the recognized date / date-time shapes to an ISO-8601 string
with a trailing `Z`, and return anything else as provided. -/

/-- `t` or `T`, the characters the case-insensitive `/t/i` matches. -/
def isTt (c : Char) : Bool := c = 't' || c = 'T'

/-- `/t/i.test(v)`. -/
def hasTi (l : List Char) : Bool := l.any isTt

/-- `/[zZ]$/.test(v)`. -/
def endsZ (l : List Char) : Bool :=
  match l.getLast? with
  | some c => c = 'z' || c = 'Z'
  | none => false

/-- `+` or `-`. -/
def isSign (c : Char) : Bool := c = '+' || c = '-'

/-- `/[+-]\d{2}:?\d{2}$/.test(v)`: the value ends in a sign, two
digits, an optional colon and two digits. -/
def endsOffset (l : List Char) : Bool :=
  match l.reverse with
  | b2 :: b1 :: c :: a2 :: a1 :: s :: _ =>
    (b2.isDigit && b1.isDigit && c = ':' && a2.isDigit && a1.isDigit && isSign s)
    || (b2.isDigit && b1.isDigit && c.isDigit && a2.isDigit && isSign a1)
  | [b2, b1, a2, a1, s] =>
    b2.isDigit && b1.isDigit && a2.isDigit && a1.isDigit && isSign s
  | _ => false

/-- `(?:\.\d+)?$`: an optional fractional-seconds tail. -/
def fracM : List Char → Bool
  | [] => true
  | c :: ds => c = '.' && (decide (¬ ds = [])) && ds.all Char.isDigit

/-- `/^\d{4}-\d{2}-\d{2}$/`. -/
def dateOnlyM : List Char → Bool
  | [y1, y2, y3, y4, h1, m1, m2, h2, d1, d2] =>
    y1.isDigit && y2.isDigit && y3.isDigit && y4.isDigit && h1 = '-' &&
    m1.isDigit && m2.isDigit && h2 = '-' && d1.isDigit && d2.isDigit
  | _ => false

/-- `/^\d{4}-\d{2}-\d{2}#\d{2}:\d{2}:\d{2}(?:\.\d+)?$/` where `#` is a
one-character separator class (a space, or `T`/`t` for the `/i`
variant). -/
def dtSecM (sep : Char → Bool) : List Char → Bool
  | y1 :: y2 :: y3 :: y4 :: h1 :: m1 :: m2 :: h2 :: d1 :: d2 :: s ::
      o1 :: o2 :: c1 :: n1 :: n2 :: c2 :: p1 :: p2 :: rest =>
    y1.isDigit && y2.isDigit && y3.isDigit && y4.isDigit && h1 = '-' &&
    m1.isDigit && m2.isDigit && h2 = '-' && d1.isDigit && d2.isDigit &&
    sep s && o1.isDigit && o2.isDigit && c1 = ':' && n1.isDigit && n2.isDigit &&
    c2 = ':' && p1.isDigit && p2.isDigit && fracM rest
  | _ => false

/-- `/^\d{4}-\d{2}-\d{2}#\d{2}:\d{2}$/` with a separator class. -/
def dtMinM (sep : Char → Bool) : List Char → Bool
  | [y1, y2, y3, y4, h1, m1, m2, h2, d1, d2, s, o1, o2, c1, n1, n2] =>
    y1.isDigit && y2.isDigit && y3.isDigit && y4.isDigit && h1 = '-' &&
    m1.isDigit && m2.isDigit && h2 = '-' && d1.isDigit && d2.isDigit &&
    sep s && o1.isDigit && o2.isDigit && c1 = ':' && n1.isDigit && n2.isDigit
  | _ => false

/-- The separator class of the space-separated patterns. -/
def spaceSep (c : Char) : Bool := c = ' '

/-- `v.replace(' ', 'T')`: replace the first space (the matched shapes
contain exactly one). -/
def replaceFirstSpaceT : List Char → List Char
  | [] => []
  | c :: rest => if c = ' ' then 'T' :: rest else c :: replaceFirstSpaceT rest

/-- `toIso8601Z` on a trimmed non-empty value, one branch per source
regex in source order. -/
def toIso8601ZL (v : List Char) : List Char :=
  if hasTi v && (endsZ v || endsOffset v) then v
  else if dtSecM spaceSep v then replaceFirstSpaceT v ++ ['Z']
  else if dateOnlyM v then v ++ "T00:00:00Z".data
  else if dtSecM isTt v then v ++ ['Z']
  else if dtMinM spaceSep v then replaceFirstSpaceT v ++ [':', '0', '0', 'Z']
  else if dtMinM isTt v then v ++ [':', '0', '0', 'Z']
  else v

/-- `toIso8601Z`: `undefined` (here `none`) for an empty or
whitespace-only value, otherwise the normalized trimmed value. -/
def toIso8601Z (val : String) : Option String :=
  let v := jsTrimL val.data
  if v = [] then none else some (String.mk (toIso8601ZL v))

/-! ### The supported timestamp shapes, as the spec words them -/

/-- A run of exactly `n` decimal digits. -/
def DigitRun (n : Nat) (l : List Char) : Prop :=
  l.length = n ∧ ∀ c ∈ l, c.isDigit = true

/-- A bare date `YYYY-MM-DD`. -/
def BareDate (v : List Char) : Prop :=
  ∃ y mo d, DigitRun 4 y ∧ DigitRun 2 mo ∧ DigitRun 2 d ∧
    v = y ++ '-' :: mo ++ '-' :: d

/-- An optional fractional-seconds part `(.digits)?`. -/
def FracPart (f : List Char) : Prop :=
  f = [] ∨ ∃ ds, ¬ ds = [] ∧ (∀ c ∈ ds, c.isDigit = true) ∧ f = '.' :: ds

/-- A time-of-day with seconds `HH:MM:SS(.f)?`. -/
def TimeSec (t : List Char) : Prop :=
  ∃ h n sec f, DigitRun 2 h ∧ DigitRun 2 n ∧ DigitRun 2 sec ∧ FracPart f ∧
    t = h ++ ':' :: n ++ ':' :: sec ++ f

/-- A time-of-day without seconds `HH:MM`. -/
def TimeMin (t : List Char) : Prop :=
  ∃ h n, DigitRun 2 h ∧ DigitRun 2 n ∧ t = h ++ ':' :: n

/-- The supported timestamp shapes of the spec: a bare date; a
space-separated or `T`/`t`-separated date-time, with or without
seconds; or a non-empty value already carrying a trailing timezone
marker. -/
def SupportedShape (v : List Char) : Prop :=
  BareDate v ∨
  (∃ d t, BareDate d ∧ TimeSec t ∧ v = d ++ ' ' :: t) ∨
  (∃ d t s, BareDate d ∧ TimeSec t ∧ isTt s = true ∧ v = d ++ s :: t) ∨
  (∃ d t, BareDate d ∧ TimeMin t ∧ v = d ++ ' ' :: t) ∨
  (∃ d t s, BareDate d ∧ TimeMin t ∧ isTt s = true ∧ v = d ++ s :: t) ∨
  (¬ v = [] ∧ (endsZ v = true ∨ endsOffset v = true))

/-! ## Lemmas and claim theorems -/

/-! ### Properties of first-occurrence de-duplication -/

theorem dedupFirstAux_sublist (l : List (List Char)) :
    ∀ seen, (dedupFirstAux seen l).Sublist l := by
  induction l with
  | nil => intro seen; simp [dedupFirstAux]
  | cons x xs ih =>
    intro seen
    simp only [dedupFirstAux]
    by_cases hx : x ∈ seen
    · simp only [hx, if_pos]
      exact (ih seen).cons x
    · simp only [hx, if_neg, not_false_iff]
      exact (ih (x :: seen)).cons₂ x

theorem dedupFirstAux_nodup (l : List (List Char)) :
    ∀ seen, (dedupFirstAux seen l).Nodup ∧ ∀ x ∈ dedupFirstAux seen l, x ∉ seen := by
  induction l with
  | nil => intro seen; simp [dedupFirstAux]
  | cons x xs ih =>
    intro seen
    simp only [dedupFirstAux]
    by_cases hx : x ∈ seen
    · simpa [hx] using ih seen
    · obtain ⟨hnd, hni⟩ := ih (x :: seen)
      simp only [hx, if_neg, not_false_iff, List.nodup_cons, List.mem_cons]
      refine ⟨⟨fun hmem => ?_, hnd⟩, fun y hy => ?_⟩
      · exact hni x hmem (List.mem_cons_self x seen)
      · rcases hy with rfl | hy
        · exact hx
        · exact fun hys => hni y hy (List.mem_cons_of_mem x hys)

theorem dedupFirst_nodup (l : List (List Char)) : (dedupFirst l).Nodup :=
  (dedupFirstAux_nodup l []).1

theorem dedupFirst_sublist (l : List (List Char)) : (dedupFirst l).Sublist l :=
  dedupFirstAux_sublist l []

/-! ### Claim C3: list-valued field parsing -/

/-- C3 (counterexample): the claim states that every list-valued field
parser de-duplicates its result, so that the delimited text "a|b|a"
parses to ["a","b"].  The incidents importer's `parseServices`
(src/unnamed/part_001, the code the claim cites) performs no
de-duplication: "a|b|a" parses to ["a","b","a"], not ["a","b"], and the
JSON array ["a","b","a"] likewise parses to itself. -/
theorem parseServicesInc_no_dedup_counterexample :
    parseServicesInc "a|b|a" = [JVal.str "a".data, JVal.str "b".data, JVal.str "a".data] ∧
    parseServicesInc "[\"a\",\"b\",\"a\"]" =
      [JVal.str "a".data, JVal.str "b".data, JVal.str "a".data] ∧
    ¬ parseServicesInc "a|b|a" = [JVal.str "a".data, JVal.str "b".data] := by
  refine ⟨rfl, rfl, fun h => ?_⟩
  have h2 : parseServicesInc "a|b|a" =
      [JVal.str "a".data, JVal.str "b".data, JVal.str "a".data] := rfl
  rw [h2] at h
  exact absurd (congrArg List.length h) (by decide)

/-- C3 (amended): parsing of list-valued fields attempts a JSON array
literal first and falls back to delimiter splitting with trimming and
removal of empty entries, but de-duplication differs per importer: the
set-pull-services `parseServices` de-duplicates preserving first
occurrence — both the JSON array ["a","b","a"] and the delimited text
"a|b|a" parse to ["a","b"], and every output is duplicate-free — but it
splits delimited text on comma or pipe only (semicolons are not
delimiters there); the incidents `parseServices` splits on comma,
semicolon, or pipe but does not de-duplicate, parsing both example
inputs to ["a","b","a"]. -/
theorem parseServices_dedup_amended :
    parseServicesSP "[\"a\",\"b\",\"a\"]" "" = ["a", "b"] ∧
    parseServicesSP "a|b|a" "" = ["a", "b"] ∧
    parseServicesSP "a;b" "" = ["a;b"] ∧
    (∀ primary fallback : String, (parseServicesSP primary fallback).Nodup) ∧
    parseServicesInc "[\"a\",\"b\",\"a\"]" =
      [JVal.str "a".data, JVal.str "b".data, JVal.str "a".data] ∧
    parseServicesInc "a|b|a" = [JVal.str "a".data, JVal.str "b".data, JVal.str "a".data] ∧
    parseServicesInc "a;b" = [JVal.str "a".data, JVal.str "b".data] := by
  refine ⟨by decide, by decide, by decide, fun primary fallback => ?_, rfl, rfl, rfl⟩
  refine List.Nodup.map (fun a b hab => ?_) (dedupFirst_nodup _)
  injection hab

/-- C7: the files processed are exactly the `.csv`-suffixed ones
(case-insensitive), ordered by the numeric value of the first digit run
in each name with digitless names keyed as 0; in particular every
directory listing of chunk_2.csv, chunk_10.csv, chunk_1.csv is ordered
as chunk_1.csv, chunk_2.csv, chunk_10.csv. -/
theorem numericSortFiles_ok :
    (∀ files : List String,
      (numericSortFiles files).Perm (files.filter isCsvName) ∧
      (numericSortFiles files).Pairwise (fun a b => fileNumber a ≤ fileNumber b)) ∧
    (∀ name : String, (∀ c ∈ name.data, ¬ c.isDigit) → fileNumber name = 0) ∧
    (∀ l : List String, l.Perm ["chunk_2.csv", "chunk_10.csv", "chunk_1.csv"] →
      numericSortFiles l = ["chunk_1.csv", "chunk_2.csv", "chunk_10.csv"]) := by
  refine ⟨fun files => ⟨List.perm_insertionSort _ _, ?_⟩, fun name hname => ?_, fun l hl => ?_⟩
  · letI : IsTotal String (fun a b => fileNumber a ≤ fileNumber b) :=
      ⟨fun a b => Nat.le_total _ _⟩
    letI : IsTrans String (fun a b => fileNumber a ≤ fileNumber b) :=
      ⟨fun _ _ _ hab hbc => le_trans hab hbc⟩
    exact List.sorted_insertionSort _ _
  · have hrun : ∀ cs : List Char, (∀ c ∈ cs, ¬ c.isDigit) → firstDigitRun cs = none := by
      intro cs
      induction cs with
      | nil => intro _; rfl
      | cons c rest ih =>
        intro h
        simp only [firstDigitRun]
        rw [if_neg, ih]
        · intro x hx; exact h x (List.mem_cons_of_mem c hx)
        · simpa using h c (List.mem_cons_self c rest)
    unfold fileNumber
    rw [hrun name.data hname]
  · have hlen := hl.length_eq
    have hsub := hl.subset
    have hnd : l.Nodup := hl.nodup_iff.mpr (by decide)
    rcases l with _ | ⟨a, l⟩
    · simp at hlen
    rcases l with _ | ⟨b, l⟩
    · simp at hlen
    rcases l with _ | ⟨c, l⟩
    · simp at hlen
    rcases l with _ | ⟨d, l⟩
    swap
    · simp at hlen
    have ha : a ∈ (["chunk_2.csv", "chunk_10.csv", "chunk_1.csv"] : List String) :=
      hsub (by simp)
    have hb : b ∈ (["chunk_2.csv", "chunk_10.csv", "chunk_1.csv"] : List String) :=
      hsub (by simp)
    have hc : c ∈ (["chunk_2.csv", "chunk_10.csv", "chunk_1.csv"] : List String) :=
      hsub (by simp)
    simp only [List.mem_cons, List.not_mem_nil, or_false] at ha hb hc
    rcases ha with rfl | rfl | rfl <;> rcases hb with rfl | rfl | rfl <;>
      rcases hc with rfl | rfl | rfl <;>
      first
        | decide
        | (exfalso; simp_all)

/-- C7 (witness): the headline example, discharged through
`numericSortFiles_ok` at the listing order chunk_2, chunk_10, chunk_1. -/
theorem numericSortFiles_ok_witness :
    numericSortFiles ["chunk_2.csv", "chunk_10.csv", "chunk_1.csv"] =
      ["chunk_1.csv", "chunk_2.csv", "chunk_10.csv"] :=
  numericSortFiles_ok.2.2 _ (List.Perm.refl _)

theorem attemptTimes_mainTrace {R : Type} (rps : Nat) (records : List R) :
    ∀ t, attemptTimes (mainTrace rps records) t =
      (List.range records.length).map (fun i => t + i * delayMs rps) := by
  induction records with
  | nil => intro t; rfl
  | cons r rest ih =>
    intro t
    simp only [mainTrace, attemptTimes, List.length_cons, List.range_succ_eq_map,
      List.map_cons, List.map_map, ih (t + delayMs rps)]
    refine congrArg₂ List.cons (by ring) (List.map_congr_left fun i _ => ?_)
    simp only [Function.comp_apply, Nat.succ_eq_add_one]
    ring

/-- C9: with dry-run enabled the missing-token check never aborts — it is
enforced only when dry-run is disabled — so a dry run with no token
proceeds through the whole input: the main loop attempts every record
exactly once, in order. -/
theorem dryRun_token_check_skipped :
    (∀ token : String, missingTokenAborts token true = false) ∧
    missingTokenAborts "" false = true ∧
    (∀ (token : String) (dryRun : Bool), dryRun = false →
      missingTokenAborts token dryRun = decide (token = "")) ∧
    (∀ (R : Type) (rps : Nat) (records : List R),
      attemptsOf (mainTrace rps records) = records) := by
  refine ⟨fun token => by simp [missingTokenAborts], by decide,
    fun token dryRun h => by simp [missingTokenAborts, h], fun R rps records => ?_⟩
  induction records with
  | nil => rfl
  | cons r rest ih => simp only [mainTrace, attemptsOf, ih]

/-- C9 (witness): with dry-run enabled an empty token does not abort;
with dry-run disabled the check reduces to the token test. -/
theorem dryRun_token_check_skipped_witness :
    missingTokenAborts "" true = false ∧
    missingTokenAborts "" false = decide (("" : String) = "") :=
  ⟨dryRun_token_check_skipped.1 "", dryRun_token_check_skipped.2.2.1 "" false rfl⟩

/-! ### Claim C6: fixed inter-call delay and the rate budget -/

/-- C6 (counterexample): the claim asserts the fixed inter-call delay of
floor(1000/rps) ms keeps the aggregate call rate within the configured
requests-per-second budget.  At rps = 7 the computed delay is 142 ms and
8 consecutive attempts all start strictly within one 1000 ms window —
one more than the budget of 7. -/
theorem throttle_rate_counterexample :
    delayMs 7 = 142 ∧
    ((attemptTimes (mainTrace 7 (List.range 8)) 0).filter (fun t => t < 1000)).length = 8 ∧
    7 < 8 := by decide

/-- C6 (amended): after every delivery attempt, success or failure
alike, the sender sleeps the fixed delay
`max(0, floor(1000 / max(1, rps)))` ms — equal to floor(1000/rps)
whenever rps ≥ 1 — so consecutive attempts start exactly one delay
apart; this caps the rate at one call per delay period, which can
slightly exceed the nominal requests-per-second budget when rps does not
divide 1000 (at rps = 7 the delay is 142 ms and 8 attempts start within
a 1000 ms window). -/
theorem throttle_fixed_delay_amended :
    (∀ (R : Type) (rps : Nat) (records : List R),
      mainTrace rps records =
        records.flatMap (fun r => [Ev.attempt r, Ev.sleep (delayMs rps)])) ∧
    (∀ rps : Nat, 1 ≤ rps → delayMs rps = 1000 / rps) ∧
    (∀ (R : Type) (rps : Nat) (records : List R),
      attemptTimes (mainTrace rps records) 0 =
        (List.range records.length).map (fun i => i * delayMs rps)) := by
  refine ⟨fun R rps records => ?_, fun rps h => ?_, fun R rps records => ?_⟩
  · induction records with
    | nil => rfl
    | cons r rest ih => simp only [mainTrace, List.flatMap_cons, ih]; rfl
  · simp only [delayMs, Nat.max_eq_right h, Nat.zero_max]
  · rw [attemptTimes_mainTrace]
    exact List.map_congr_left fun i _ => by omega

/-- C6 (witness): the delay formula at rps = 7 through
`throttle_fixed_delay_amended`, discharging the rps ≥ 1 hypothesis. -/
theorem throttle_fixed_delay_amended_witness : delayMs 7 = 1000 / 7 :=
  throttle_fixed_delay_amended.2.1 7 (by decide)

theorem execOps_gitlabOps_take {α : Type} (us : List α) :
    ∀ (n : Nat) (m : Option α) (d : List α),
      execOps ((gitlabOps us).take n) (m, d) =
        ((if n = 0 then m else if n ≤ 2 * us.length then us.get? ((n - 1) / 2) else none),
         d ++ us.take (n / 2)) := by
  induction us with
  | nil =>
    intro n m d
    cases n with
    | zero => simp [gitlabOps, execOps]
    | succ k =>
      simp only [gitlabOps, List.flatMap_nil, List.nil_append, List.take_succ_cons,
        List.take_nil, execOps, List.length_nil]
      rw [if_neg (by omega), if_neg (by omega)]
      simp
  | cons u us' ih =>
    intro n m d
    match n with
    | 0 => simp [execOps]
    | 1 =>
      simp only [gitlabOps, List.flatMap_cons, List.cons_append, List.append_assoc,
        List.take_succ_cons, List.take_zero, execOps]
      rw [if_neg (by omega), if_pos (by simp only [List.length_cons]; omega)]
      simp
    | Nat.succ (Nat.succ k) =>
      have hops : gitlabOps (u :: us') = ROp.write u :: ROp.process u :: gitlabOps us' := by
        simp [gitlabOps]
      rw [hops]
      simp only [List.take_succ_cons, execOps]
      rw [ih k (some u) (d ++ [u])]
      simp only [Nat.succ_eq_add_one, List.length_cons]
      have htake : (u :: us').take ((k + 1 + 1) / 2) = u :: us'.take (k / 2) := by
        have h2 : (k + 1 + 1) / 2 = k / 2 + 1 := by omega
        rw [h2, List.take_succ_cons]
      rw [htake]
      refine congrArg₂ Prod.mk ?_ (by simp)
      rw [if_neg (show ¬ (k + 1 + 1 = 0) by omega)]
      rcases Nat.eq_zero_or_pos k with rfl | hk
      · rw [if_pos rfl, if_pos (show 0 + 1 + 1 ≤ 2 * (us'.length + 1) by omega)]
        rfl
      · rw [if_neg (show ¬ k = 0 by omega)]
        by_cases hle : k ≤ 2 * us'.length
        · rw [if_pos hle, if_pos (show k + 1 + 1 ≤ 2 * (us'.length + 1) by omega)]
          have h12 : (k + 1 + 1 - 1) / 2 = (k - 1) / 2 + 1 := by omega
          rw [h12, List.get?_cons_succ]
        · rw [if_neg hle, if_neg (show ¬ (k + 1 + 1 ≤ 2 * (us'.length + 1)) by omega)]

/-- C5 (counterexample): the claim states that a crash at any point
leaves the marker naming the last completed (group, username) unit.  A
crash right after the first `writeResume` — while the first unit is
still being fetched and sent — leaves the marker naming that unit even
though no unit has completed. -/
theorem resume_marker_counterexample :
    crashState [(1, "alice")] 1 = (some (1, "alice"), []) ∧
    ¬ (crashState [(1, "alice")] 1).1 = (crashState [(1, "alice")] 1).2.getLast? := by
  exact ⟨rfl, by decide⟩

/-- C5 (amended): the resume marker is written to stable storage before
starting each unit, naming the unit about to be processed: a crash while
unit k is in flight leaves the marker naming unit k although only the
first k units completed (so the marker can name a partially-sent unit
and resume redelivers it, at-least-once); on full successful completion
the marker is cleared, and an abort leaves it at its last-written
value. -/
theorem resume_marker_amended :
    (∀ (α : Type) (units : List α) (n : Nat),
      crashState units n =
        ((if n = 0 then none
          else if n ≤ 2 * units.length then units.get? ((n - 1) / 2) else none),
         units.take (n / 2))) ∧
    (∀ (α : Type) (units : List α) (k : Nat), 2 * k + 1 ≤ 2 * units.length →
      crashState units (2 * k + 1) = (units.get? k, units.take k)) ∧
    (∀ (α : Type) (units : List α), crashState units (2 * units.length + 1) = (none, units)) := by
  have hchar : ∀ (α : Type) (units : List α) (n : Nat),
      crashState units n =
        ((if n = 0 then none
          else if n ≤ 2 * units.length then units.get? ((n - 1) / 2) else none),
         units.take (n / 2)) := by
    intro α units n
    rw [crashState, execOps_gitlabOps_take units n none []]
    simp
  refine ⟨hchar, fun α units k hk => ?_, fun α units => ?_⟩
  · rw [hchar]
    rw [if_neg (by omega), if_pos hk]
    have h1 : (2 * k + 1 - 1) / 2 = k := by omega
    have h2 : (2 * k + 1) / 2 = k := by omega
    rw [h1, h2]
  · rw [hchar]
    rw [if_neg (by omega), if_neg (by omega)]
    have : (2 * units.length + 1) / 2 = units.length := by omega
    rw [this, List.take_length]

/-- C5 (witness): a crash while the first of two units is in flight,
through `resume_marker_amended` — the marker names the in-flight unit
and the completed list is empty. -/
theorem resume_marker_amended_witness :
    crashState [(1, "alice"), (1, "bob")] 1 =
      (some (1, "alice"), ([] : List (Nat × String))) := by
  have h := resume_marker_amended.2.1 (Nat × String) [(1, "alice"), (1, "bob")] 0 (by decide)
  simpa using h

/-- C1 (counterexample): the claim says no fetch operation is retried
beyond 5 total attempts.  Against a sink that answers 429 six times,
`fetchComments` has slept six full retry-after periods and is still
retrying — six attempts and no permanent failure. -/
theorem fetch_retry_unbounded_counterexample :
    (fetchComments (List.replicate 6 ⟨429, none⟩) 1).2 = none ∧
    (fetchComments (List.replicate 6 ⟨429, none⟩) 1).1 = List.replicate 6 60000 := by
  decide

/-- C1 (amended): `getEarliestMergedMRs` retries a 429 after sleeping
the parsed retry-after duration for at most 5 total attempts, after
which it fails permanently — against any response sequence it has
decided by its fifth attempt; `fetchComments`, however, retries 429
without any attempt bound (only its 503/504 branch is bounded), so not
every retry loop of the repository is attempt-bounded. -/
theorem retry_bound_amended :
    (∀ (n a : Nat),
      fetchComments (List.replicate n ⟨429, none⟩) a = (List.replicate n 60000, none)) ∧
    (∀ (l : List Resp) (a : Nat), 1 ≤ a → a ≤ 5 → 5 - a < l.length →
      ((getEarliestMergedMRs l a).2).isSome = true) ∧
    getEarliestMergedMRs (List.replicate 5 ⟨429, some 7⟩) 1 =
      (List.replicate 5 7000, some GLOutcome.tooManyRetries) ∧
    getEarliestMergedMRs [⟨429, some 2⟩, ⟨200, none⟩] 1 = ([2000], some GLOutcome.ok) := by
  refine ⟨fun n => ?_, fun l => ?_, by decide, by decide⟩
  · induction n with
    | zero => intro a; rfl
    | succ k ih =>
      intro a
      simp only [List.replicate_succ, fetchComments, if_pos rfl, ih (a + 1)]
      rfl
  · induction l with
    | nil => intro a _ _ h3; simp at h3
    | cons r rest ih =>
      intro a h1 h2 h3
      simp only [getEarliestMergedMRs]
      by_cases h429 : r.status = 429
      · rw [if_pos h429]
        by_cases h5 : 5 ≤ a
        · rw [if_pos h5]; rfl
        · rw [if_neg h5]
          exact ih (a + 1) (by omega) (by omega) (by simp at h3 ⊢; omega)
      · rw [if_neg h429]
        by_cases hok : 200 ≤ r.status ∧ r.status < 300
        · rw [if_pos hok]; rfl
        · rw [if_neg hok]; rfl

/-- C1 (witness): against five straight 429 responses, started at
attempt 1, `getEarliestMergedMRs` has reached a decision, via
`retry_bound_amended` with its attempt-count hypotheses discharged. -/
theorem retry_bound_amended_witness :
    ((getEarliestMergedMRs (List.replicate 5 ⟨429, none⟩) 1).2).isSome = true :=
  retry_bound_amended.2.1 (List.replicate 5 ⟨429, none⟩) 1 (by decide) (by decide) (by decide)

theorem withRetryGo_length_le (base maxA : Nat) (atts : List Att) :
    ∀ (js : List Nat) (a : Nat), (withRetryGo base maxA atts js a).1.length ≤ maxA - 1 - a := by
  induction atts with
  | nil => intro js a; simp [withRetryGo]
  | cons att rest ih =>
    intro js a
    match att with
    | Att.ok => simp [withRetryGo]
    | Att.err s =>
      simp only [withRetryGo]
      by_cases hc : retryable s && decide (a + 1 < maxA)
      · rw [if_pos hc]
        have hlt : a + 1 < maxA := by
          have := (Bool.and_eq_true _ _).mp hc
          exact of_decide_eq_true this.2
        have := ih js.tail (a + 1)
        simp only [List.length_cons]
        omega
      · rw [if_neg hc]; simp

theorem withRetryGo_sleep_eq (base maxA : Nat) (atts : List Att) :
    ∀ (js : List Nat) (a : Nat), (∀ j ∈ js, j < 250) →
      ∀ (k x : Nat), (withRetryGo base maxA atts js a).1.get? k = some x →
        ∃ j, j < 250 ∧ x = min 30000 (base * 2 ^ (a + k)) + j := by
  induction atts with
  | nil => intro js a _ k x hk; simp [withRetryGo] at hk
  | cons att rest ih =>
    intro js a hjs k x hk
    match att with
    | Att.ok => simp [withRetryGo] at hk
    | Att.err s =>
      simp only [withRetryGo] at hk
      by_cases hc : retryable s && decide (a + 1 < maxA)
      · rw [if_pos hc] at hk
        match k with
        | 0 =>
          simp only [List.get?_cons_zero, Option.some_inj] at hk
          refine ⟨js.headD 0, ?_, ?_⟩
          · match js with
            | [] => decide
            | j :: js' => exact hjs j (List.mem_cons_self j js')
          · rw [← hk]
            simp
        | Nat.succ k' =>
          simp only [List.get?_cons_succ] at hk
          obtain ⟨j, hj, hval⟩ := ih js.tail (a + 1)
            (fun y hy => hjs y (List.mem_of_mem_tail hy)) k' x hk
          refine ⟨j, hj, ?_⟩
          have harith : a + 1 + k' = a + (k' + 1) := by omega
          rw [← harith]
          exact hval
      · rw [if_neg hc] at hk
        simp at hk

/-- C2: under the retry classification of the set-pull-services sender,
failures with status 5xx, 408, 429 or no status are retried with
exponential backoff — the k-th backoff sleep (0-indexed) equals
min(30000, base * 2^k) plus a jitter strictly below 250 ms and at most 4
backoffs happen, i.e. at most 5 total attempts — while any other 4xx is
rethrown immediately, never retried; a persistent 500 exhausts exactly 5
attempts with doubling capped delays and is then thrown. -/
theorem withRetry_backoff_ok :
    (∀ (s : Nat), 400 ≤ s → s < 500 → ¬ s = 429 → ¬ s = 408 →
      ∀ (rest : List Att) (js : List Nat) (a : Nat),
        withRetryGo 500 5 (Att.err (some s) :: rest) js a = ([], WRes.thrown (some s))) ∧
    (∀ (atts : List Att) (js : List Nat), (withRetry 500 5 atts js).1.length ≤ 4) ∧
    (∀ (atts : List Att) (js : List Nat), (∀ j ∈ js, j < 250) →
      ∀ (k x : Nat), (withRetry 500 5 atts js).1.get? k = some x →
        ∃ j, j < 250 ∧ x = min 30000 (500 * 2 ^ k) + j) ∧
    (∀ (s : Option Nat) (j : Nat) (rest : List Att) (js : List Nat), retryable s = true →
      withRetryGo 500 5 (Att.err s :: Att.ok :: rest) (j :: js) 0 =
        ([500 + j], WRes.success)) ∧
    withRetry 500 5 (List.replicate 5 (Att.err (some 500))) [0, 0, 0, 0] =
      ([500, 1000, 2000, 4000], WRes.thrown (some 500)) := by
  refine ⟨fun s h4 h5 h429 h408 rest js a => ?_, fun atts js => withRetryGo_length_le _ _ _ _ _,
    fun atts js hjs k x hk => by simpa using withRetryGo_sleep_eq 500 5 atts js 0 hjs k x hk,
    fun s j rest js hs => ?_, by decide⟩
  · simp only [withRetryGo]
    rw [if_neg]
    simp only [Bool.and_eq_true, not_and]
    intro hres
    exfalso
    simp only [retryable, Bool.or_eq_true, decide_eq_true_eq] at hres
    omega
  · simp only [withRetryGo, hs]
    norm_num [withRetryGo]

/-- C2 (witness): a 404 is thrown immediately with no backoff sleeps,
and a network error (no status) is retried once then succeeds, through
`withRetry_backoff_ok` with its hypotheses discharged concretely. -/
theorem withRetry_backoff_ok_witness :
    withRetryGo 500 5 [Att.err (some 404)] [] 0 = ([], WRes.thrown (some 404)) ∧
    withRetryGo 500 5 [Att.err none, Att.ok] [9] 0 = ([500 + 9], WRes.success) :=
  ⟨withRetry_backoff_ok.1 404 (by decide) (by decide) (by decide) (by decide) [] [] 0,
   withRetry_backoff_ok.2.2.2.1 none 9 [] [] (by decide)⟩

/-- C8: with dry-run enabled there are zero network effects, the record
is reported as a success, and the logged / returned payload is
byte-for-byte the payload a live run would send: `postDX` logs exactly
the serialized body the live branch posts, and `processRow` builds the
same payload in both modes, raising the same errors, with the live
effect posting exactly the dry result's payload. -/
theorem dryRun_equivalence :
    (∀ (url token body : String) (resp : Nat × String),
      postDX true url token body resp =
        ([Eff.logLine ("[DRY_RUN] POST " ++ url ++ " -> " ++ body)],
         { ok := true, status := 0, body := "DRY_RUN" }) ∧
      postDX false url token body resp =
        ([Eff.netPost url token body],
         { ok := decide (200 ≤ resp.1) && decide (resp.1 < 300), status := resp.1,
           body := resp.2 })) ∧
    (∀ (row : List (String × String)) (b t : String) (resp : Nat × String)
        (effs : List DEff) (res : RowResult),
      processRow row b t true resp = Except.ok (effs, res) →
        effs = [] ∧ res.ok = true ∧
        ∃ url token res',
          processRow row b t false resp =
            Except.ok ([DEff.netPostD url token res.payload], res') ∧
          res'.payload = res.payload) ∧
    (∀ (row : List (String × String)) (b t : String) (resp : Nat × String) (e : String),
      processRow row b t true resp = Except.error e →
        processRow row b t false resp = Except.error e) := by
  refine ⟨fun url token body resp => ⟨rfl, rfl⟩, fun row b t resp effs res h => ?_,
    fun row b t resp e h => ?_⟩
  · by_cases h1 : trimS ((getTruthy (normalizeRow row) "base_url").getD b) = ""
    · simp [processRow, h1] at h
    · by_cases h2 : trimS ((getTruthy (normalizeRow row) "token").getD t) = ""
      · simp [processRow, h1, h2] at h
      · cases hp : buildPayloadD row with
        | error e2 => simp [processRow, h1, h2, hp] at h
        | ok payload =>
          have hlive : processRow row b t false resp =
              Except.ok ([DEff.netPostD
                  (stripTrailingSlash (trimS ((getTruthy (normalizeRow row) "base_url").getD b)) ++
                    "/api/deployments.create")
                  (trimS ((getTruthy (normalizeRow row) "token").getD t)) payload],
                { ok := decide (200 ≤ resp.1) && decide (resp.1 < 300), status := resp.1,
                  body := resp.2, payload := payload }) := by
            simp [processRow, h1, h2, hp]
          have hdry : processRow row b t true resp =
              Except.ok ([], { ok := true, status := 0, body := "DRY_RUN", payload := payload }) := by
            simp [processRow, h1, h2, hp]
          rw [hdry] at h
          obtain ⟨rfl, rfl⟩ : effs = [] ∧
              res = { ok := true, status := 0, body := "DRY_RUN", payload := payload } := by
            have hinj := Except.ok.inj h
            exact ⟨(congrArg Prod.fst hinj).symm, (congrArg Prod.snd hinj).symm⟩
          exact ⟨rfl, rfl, _, _, _, hlive, rfl⟩
  · by_cases h1 : trimS ((getTruthy (normalizeRow row) "base_url").getD b) = ""
    · simp [processRow, h1] at h ⊢
      exact h
    · by_cases h2 : trimS ((getTruthy (normalizeRow row) "token").getD t) = ""
      · simp [processRow, h1, h2] at h ⊢
        exact h
      · cases hp : buildPayloadD row with
        | error e2 =>
          simp [processRow, h1, h2, hp] at h ⊢
          exact h
        | ok payload => simp [processRow, h1, h2, hp] at h

/-- C8 (witness): for a concrete two-column row the dry run reports
success with the built payload, and `dryRun_equivalence` (hypothesis
discharged by computation) shows the live run posts exactly that
payload. -/
theorem dryRun_equivalence_witness :
    ∃ url token res',
      processRow sampleRow "http://x" "tok" false (200, "ok") =
        Except.ok ([DEff.netPostD url token samplePayload], res') ∧
      res'.payload = samplePayload :=
  (dryRun_equivalence.2.1 sampleRow "http://x" "tok" (200, "ok") []
    { ok := true, status := 0, body := "DRY_RUN", payload := samplePayload } rfl).2.2

/-! ### Character classification -/

theorem isDigit_isTt_false (c : Char) (h : c.isDigit = true) : isTt c = false := by
  simp only [isTt, Bool.or_eq_false_iff, decide_eq_false_iff_not]
  constructor
  · rintro rfl; exact absurd h (by decide)
  · rintro rfl; exact absurd h (by decide)

theorem isDigit_zChar_false (c : Char) (h : c.isDigit = true) :
    ((c = 'z' : Bool) || (c = 'Z' : Bool)) = false := by
  simp only [Bool.or_eq_false_iff, decide_eq_false_iff_not]
  constructor
  · rintro rfl; exact absurd h (by decide)
  · rintro rfl; exact absurd h (by decide)

theorem isDigit_isSign_false (c : Char) (h : c.isDigit = true) : isSign c = false := by
  simp only [isSign, Bool.or_eq_false_iff, decide_eq_false_iff_not]
  constructor
  · rintro rfl; exact absurd h (by decide)
  · rintro rfl; exact absurd h (by decide)

theorem isDigit_jsWs_false (c : Char) (h : c.isDigit = true) : jsWs c = false := by
  simp only [jsWs, decide_eq_false_iff_not]
  rintro (rfl | rfl | rfl | rfl | rfl | rfl) <;> exact absurd h (by decide)

/-! ### Trimming lemmas -/

theorem head?_dropWhile (p : Char → Bool) (l : List Char) :
    ∀ c ∈ (l.dropWhile p).head?, p c = false := by
  induction l with
  | nil => simp
  | cons a t ih =>
    intro c hc
    rw [List.dropWhile_cons] at hc
    split at hc
    · exact ih c hc
    · simp at hc
      subst hc
      simpa using ‹¬ p a = true›

theorem jsTrimL_head (l : List Char) : ∀ c ∈ (jsTrimL l).head?, jsWs c = false := by
  intro c hc
  unfold jsTrimL at hc
  rw [List.head?_reverse] at hc
  rcases hsfx : List.dropWhile jsWs (List.dropWhile jsWs l).reverse with _ | ⟨x, xs⟩
  · rw [hsfx] at hc
    simp at hc
  · have hne : List.dropWhile jsWs (List.dropWhile jsWs l).reverse ≠ [] := by
      rw [hsfx]; simp
    obtain ⟨pre, hpre⟩ := (List.dropWhile_suffix (l := (List.dropWhile jsWs l).reverse) jsWs)
    have hlast : (List.dropWhile jsWs l).reverse.getLast? =
        (List.dropWhile jsWs (List.dropWhile jsWs l).reverse).getLast? := by
      conv_lhs => rw [← hpre]
      rw [List.getLast?_append]
      rcases hgl : (List.dropWhile jsWs (List.dropWhile jsWs l).reverse).getLast? with _ | x0
      · exact absurd (List.getLast?_eq_none_iff.mp hgl) hne
      · simp
    rw [← hlast, List.getLast?_reverse] at hc
    exact head?_dropWhile jsWs l c hc

theorem jsTrimL_getLast (l : List Char) : ∀ c ∈ (jsTrimL l).getLast?, jsWs c = false := by
  intro c hc
  unfold jsTrimL at hc
  rw [List.getLast?_reverse] at hc
  exact head?_dropWhile jsWs _ c hc

theorem dropWhile_eq_self_of_head (p : Char → Bool) (l : List Char)
    (h : ∀ c ∈ l.head?, p c = false) : l.dropWhile p = l := by
  cases l with
  | nil => rfl
  | cons a t =>
    rw [List.dropWhile_cons, if_neg]
    simp only [List.head?_cons, Option.mem_some_iff] at h
    simp [h a rfl]

theorem jsTrimL_eq_self (l : List Char) (h1 : ∀ c ∈ l.head?, jsWs c = false)
    (h2 : ∀ c ∈ l.getLast?, jsWs c = false) : jsTrimL l = l := by
  unfold jsTrimL
  rw [dropWhile_eq_self_of_head jsWs l h1]
  rw [dropWhile_eq_self_of_head jsWs l.reverse (by simpa [List.head?_reverse] using h2)]
  exact List.reverse_reverse l

theorem jsTrimL_idem (l : List Char) : jsTrimL (jsTrimL l) = jsTrimL l :=
  jsTrimL_eq_self _ (jsTrimL_head l) (jsTrimL_getLast l)

/-! ### Small list helpers -/

theorem len2_exists (l : List Char) (h : l.length = 2) : ∃ a b, l = [a, b] := by
  match l, h with
  | [a, b], _ => exact ⟨a, b, rfl⟩

theorem len4_exists (l : List Char) (h : l.length = 4) : ∃ a b c d, l = [a, b, c, d] := by
  match l, h with
  | [a, b, c, d], _ => exact ⟨a, b, c, d, rfl⟩

theorem getLast?_mem_self (l : List Char) (h : ¬ l = []) :
    ∃ c, l.getLast? = some c ∧ c ∈ l := by
  induction l with
  | nil => exact absurd rfl h
  | cons a t ih =>
    cases t with
    | nil => exact ⟨a, rfl, by simp⟩
    | cons b t2 =>
      obtain ⟨c, hc, hmem⟩ := ih (by simp)
      exact ⟨c, by rw [List.getLast?_cons_cons]; exact hc, by simp [hmem]⟩

theorem getLast?_cons_ne_nil (c : Char) (l : List Char) (h : ¬ l = []) :
    (c :: l).getLast? = l.getLast? := by
  cases l with
  | nil => exact absurd rfl h
  | cons b t => exact List.getLast?_cons_cons

theorem mem_drop_append (pre t : List Char) (k : Nat) (hk : pre.length ≤ k) :
    ∀ c ∈ (pre ++ t).drop k, c ∈ t := by
  intro c hc
  have hk2 : k = pre.length + (k - pre.length) := by omega
  rw [hk2, List.drop_append] at hc
  exact List.mem_of_mem_drop hc

/-- Any string matched by the offset regex carries a sign character
among its last six characters. -/
theorem endsOffset_sign_mem (l : List Char) (h : endsOffset l = true) :
    ∃ c ∈ l.drop (l.length - 6), isSign c = true := by
  unfold endsOffset at h
  split at h
  case _ b2 b1 c a2 a1 s rest heq =>
    have hl : l = rest.reverse ++ [s, a1, a2, c, b1, b2] := by
      have := congrArg List.reverse heq
      simpa using this
    have hlen : l.length = rest.length + 6 := by
      rw [hl]; simp
    have hdrop : l.drop (l.length - 6) = [s, a1, a2, c, b1, b2] := by
      rw [hlen]
      have h6 : rest.length + 6 - 6 = rest.reverse.length := by simp
      rw [h6, hl, List.drop_left]
    simp only [Bool.or_eq_true, Bool.and_eq_true] at h
    rcases h with h1 | h2
    · exact ⟨s, by rw [hdrop]; simp, h1.2⟩
    · exact ⟨a1, by rw [hdrop]; simp, h2.2⟩
  case _ b2 b1 a2 a1 s heq =>
    have hl : l = [s, a1, a2, b1, b2] := by
      have := congrArg List.reverse heq
      simpa using this
    simp only [Bool.and_eq_true] at h
    refine ⟨s, ?_, h.2⟩
    rw [hl]
    simp
  case _ => exact absurd h (by simp)

/-! ### Output-shape helpers -/

theorem endsZ_append (l m : List Char) (h : endsZ m = true) : endsZ (l ++ m) = true := by
  unfold endsZ at h ⊢
  rcases hm : m.getLast? with _ | c
  · rw [hm] at h; exact absurd h (by simp)
  · rw [List.getLast?_append, hm]
    rw [hm] at h
    simpa using h

theorem hasTi_of_mem (l : List Char) (c : Char) (hc : c ∈ l) (ht : isTt c = true) :
    hasTi l = true :=
  List.any_eq_true.mpr ⟨c, hc, ht⟩

theorem replaceFirstSpaceT_mem_T (l : List Char) (h : ' ' ∈ l) :
    'T' ∈ replaceFirstSpaceT l := by
  induction l with
  | nil => simp at h
  | cons a t ih =>
    by_cases ha : a = ' '
    · subst ha
      simp [replaceFirstSpaceT]
    · rcases List.mem_cons.mp h with heq | hmem
      · exact absurd heq.symm ha
      · simp only [replaceFirstSpaceT, if_neg ha]
        exact List.mem_cons_of_mem a (ih hmem)

theorem head?_replaceFirstSpaceT (l : List Char) :
    (replaceFirstSpaceT l).head? = l.head?.map (fun c => if c = ' ' then 'T' else c) := by
  cases l with
  | nil => rfl
  | cons a t =>
    by_cases ha : a = ' '
    · subst ha; simp [replaceFirstSpaceT]
    · simp only [replaceFirstSpaceT, if_neg ha, List.head?_cons]
      simp [ha]

theorem replaceFirstSpaceT_eq_nil_iff (l : List Char) :
    replaceFirstSpaceT l = [] ↔ l = [] := by
  cases l with
  | nil => simp [replaceFirstSpaceT]
  | cons a t =>
    simp only [replaceFirstSpaceT]
    by_cases ha : a = ' ' <;> simp [ha]

/-! ### Matcher inversion helpers -/

theorem dtSecM_sep_mem (sep : Char → Bool) (v : List Char) (h : dtSecM sep v = true) :
    ∃ c ∈ v, sep c = true := by
  unfold dtSecM at h
  split at h
  case _ y1 y2 y3 y4 h1 m1 m2 h2 d1 d2 s o1 o2 c1 n1 n2 c2 p1 p2 rest =>
    simp only [Bool.and_eq_true] at h
    exact ⟨s, by simp, h.1.1.1.1.1.1.1.1.1.2⟩
  case _ => exact absurd h (by simp)

theorem dtMinM_sep_mem (sep : Char → Bool) (v : List Char) (h : dtMinM sep v = true) :
    ∃ c ∈ v, sep c = true := by
  unfold dtMinM at h
  split at h
  case _ y1 y2 y3 y4 h1 m1 m2 h2 d1 d2 s o1 o2 c1 n1 n2 =>
    simp only [Bool.and_eq_true] at h
    exact ⟨s, by simp, h.1.1.1.1.1.2⟩
  case _ => exact absurd h (by simp)

theorem fracM_of_FracPart (f : List Char) (h : FracPart f) : fracM f = true := by
  rcases h with rfl | ⟨ds, hne, hdig, rfl⟩
  · rfl
  · simp only [fracM, Bool.and_eq_true, decide_eq_true_eq, List.all_eq_true]
    exact ⟨⟨by simp, hne⟩, hdig⟩

/-! ### Branch outcome and idempotence of `toIso8601ZL` -/

/-- Every branch either returns the input unchanged or produces a string
containing a `T`/`t` and ending in `Z`. -/
theorem toIso8601ZL_cases (v : List Char) :
    toIso8601ZL v = v ∨
      (hasTi (toIso8601ZL v) = true ∧ endsZ (toIso8601ZL v) = true) := by
  unfold toIso8601ZL
  split_ifs with h1 h2 h3 h4 h5 h6
  · exact Or.inl rfl
  · refine Or.inr ⟨?_, endsZ_append _ _ (by decide)⟩
    obtain ⟨c, hc, hsep⟩ := dtSecM_sep_mem spaceSep v h2
    have hsp : c = ' ' := by simpa [spaceSep] using hsep
    subst hsp
    exact hasTi_of_mem _ 'T' (List.mem_append_left _ (replaceFirstSpaceT_mem_T v hc))
      (by decide)
  · refine Or.inr ⟨?_, endsZ_append _ _ (by decide)⟩
    exact hasTi_of_mem _ 'T' (List.mem_append_right _ (by decide)) (by decide)
  · refine Or.inr ⟨?_, endsZ_append _ _ (by decide)⟩
    obtain ⟨c, hc, hsep⟩ := dtSecM_sep_mem isTt v h4
    exact hasTi_of_mem _ c (List.mem_append_left _ hc) hsep
  · refine Or.inr ⟨?_, endsZ_append _ _ (by decide)⟩
    obtain ⟨c, hc, hsep⟩ := dtMinM_sep_mem spaceSep v h5
    have hsp : c = ' ' := by simpa [spaceSep] using hsep
    subst hsp
    exact hasTi_of_mem _ 'T' (List.mem_append_left _ (replaceFirstSpaceT_mem_T v hc))
      (by decide)
  · refine Or.inr ⟨?_, endsZ_append _ _ (by decide)⟩
    obtain ⟨c, hc, hsep⟩ := dtMinM_sep_mem isTt v h6
    exact hasTi_of_mem _ c (List.mem_append_left _ hc) hsep
  · exact Or.inl rfl

theorem toIso8601ZL_ne_nil (v : List Char) (h : ¬ v = []) : ¬ toIso8601ZL v = [] := by
  unfold toIso8601ZL
  split_ifs <;> simp [h, replaceFirstSpaceT_eq_nil_iff]

/-- `replaceFirstSpaceT` keeps a non-whitespace last character
non-whitespace. -/
theorem getLast?_replaceFirstSpaceT_ws (v : List Char)
    (h : ∀ c ∈ v.getLast?, jsWs c = false) :
    ∀ c ∈ (replaceFirstSpaceT v).getLast?, jsWs c = false := by
  induction v with
  | nil => intro c hc; simp [replaceFirstSpaceT] at hc
  | cons a t ih =>
    by_cases ha : a = ' '
    · subst ha
      cases t with
      | nil =>
        exfalso
        have := h ' ' (by simp)
        exact absurd this (by decide)
      | cons b t2 =>
        intro c hc
        have hrw : replaceFirstSpaceT (' ' :: b :: t2) = 'T' :: b :: t2 := rfl
        rw [hrw] at hc
        rw [getLast?_cons_ne_nil _ _ (by simp)] at hc
        refine h c ?_
        rw [getLast?_cons_ne_nil _ _ (by simp)]
        exact hc
    · intro c hc
      simp only [replaceFirstSpaceT, if_neg ha] at hc
      cases ht : t with
      | nil =>
        subst ht
        simp only [replaceFirstSpaceT] at hc
        exact h c hc
      | cons b t2 =>
        subst ht
        rw [getLast?_cons_ne_nil _ _
          (by simp [replaceFirstSpaceT_eq_nil_iff])] at hc
        refine ih ?_ c hc
        intro c2 hc2
        refine h c2 ?_
        rw [getLast?_cons_ne_nil _ _ (by simp)]
        exact hc2

/-- The output of `toIso8601ZL` on a trimmed value is itself trimmed. -/
theorem toIso8601ZL_trimmed (v : List Char) (hv : jsTrimL v = v) :
    jsTrimL (toIso8601ZL v) = toIso8601ZL v := by
  have hhead : ∀ c ∈ v.head?, jsWs c = false := by
    intro c hc
    exact jsTrimL_head v c (by rw [hv]; exact hc)
  have hlastv : ∀ c ∈ v.getLast?, jsWs c = false := by
    intro c hc
    exact jsTrimL_getLast v c (by rw [hv]; exact hc)
  have happend : ∀ (m : List Char), ¬ m = [] → (∀ c ∈ m.head?, jsWs c = false) →
      ∀ (suf : List Char), ¬ suf = [] →
      (∀ c ∈ suf, jsWs c = false) → jsTrimL (m ++ suf) = m ++ suf := by
    intro m hm hmh suf hsuf hsufc
    refine jsTrimL_eq_self _ ?_ ?_
    · intro c hc
      rw [List.head?_append_of_ne_nil m hm] at hc
      exact hmh c hc
    · intro c hc
      rw [List.getLast?_append] at hc
      obtain ⟨c2, hc2, hc2m⟩ := getLast?_mem_self suf hsuf
      rw [hc2] at hc
      simp only [Option.or_some, Option.mem_some_iff] at hc
      subst hc
      exact hsufc c2 hc2m
  have hrephead : ∀ c ∈ (replaceFirstSpaceT v).head?, jsWs c = false := by
    intro c hc
    rw [head?_replaceFirstSpaceT] at hc
    cases hvh : v.head? with
    | none => rw [hvh] at hc; simp at hc
    | some a =>
      rw [hvh] at hc
      simp at hc
      subst hc
      by_cases ha : a = ' '
      · have hwa : jsWs a = false := hhead a (by rw [hvh]; rfl)
        subst ha
        exact absurd hwa (by decide)
      · rw [if_neg ha]
        exact hhead a (by rw [hvh]; rfl)
  unfold toIso8601ZL
  split_ifs with h1 h2 h3 h4 h5 h6
  · exact hv
  · by_cases hv0 : v = []
    · subst hv0
      exact jsTrimL_eq_self _ (by decide) (by decide)
    · refine happend _ ?_ hrephead ['Z'] (by simp) (by decide)
      simpa [replaceFirstSpaceT_eq_nil_iff] using hv0
  · have hv0 : ¬ v = [] := by
      intro hveq
      subst hveq
      exact absurd h3 (by decide)
    exact happend v hv0 hhead _ (by decide) (by decide)
  · obtain ⟨c, hc, _⟩ := dtSecM_sep_mem isTt v h4
    exact happend v (List.ne_nil_of_mem hc) hhead _ (by simp) (by decide)
  · by_cases hv0 : v = []
    · subst hv0
      exact jsTrimL_eq_self _ (by decide) (by decide)
    · refine happend _ ?_ hrephead [':', '0', '0', 'Z'] (by simp) (by decide)
      simpa [replaceFirstSpaceT_eq_nil_iff] using hv0
  · obtain ⟨c, hc, _⟩ := dtMinM_sep_mem isTt v h6
    exact happend v (List.ne_nil_of_mem hc) hhead _ (by simp) (by decide)
  · exact hv

theorem toIso8601ZL_pass (w : List Char)
    (h : (hasTi w && (endsZ w || endsOffset w)) = true) : toIso8601ZL w = w := by
  unfold toIso8601ZL
  rw [if_pos h]

/-- Applying the normalizer twice yields the same result as applying it
once, for every input string. -/
theorem toIso8601Z_bind_idem (s : String) :
    (toIso8601Z s).bind toIso8601Z = toIso8601Z s := by
  by_cases hv : jsTrimL s.data = []
  · unfold toIso8601Z
    simp [hv]
  · have h1 : toIso8601Z s = some (String.mk (toIso8601ZL (jsTrimL s.data))) := by
      unfold toIso8601Z
      simp [hv]
    have htrim : jsTrimL (toIso8601ZL (jsTrimL s.data)) = toIso8601ZL (jsTrimL s.data) :=
      toIso8601ZL_trimmed _ (jsTrimL_idem s.data)
    have hne : ¬ toIso8601ZL (jsTrimL s.data) = [] := toIso8601ZL_ne_nil _ hv
    have hfix : toIso8601ZL (toIso8601ZL (jsTrimL s.data)) = toIso8601ZL (jsTrimL s.data) := by
      rcases toIso8601ZL_cases (jsTrimL s.data) with hcase | ⟨ht, hz⟩
      · rw [hcase]
        exact hcase
      · exact toIso8601ZL_pass _ (by rw [ht, hz]; rfl)
    have hw : toIso8601Z (String.mk (toIso8601ZL (jsTrimL s.data))) =
        some (String.mk (toIso8601ZL (jsTrimL s.data))) := by
      unfold toIso8601Z
      rw [show (String.mk (toIso8601ZL (jsTrimL s.data))).data =
        toIso8601ZL (jsTrimL s.data) from rfl]
      rw [htrim, if_neg hne, hfix]
    rw [h1, Option.some_bind]
    exact hw

/-! ### Shape classification helpers -/

theorem DigitRun2_facts (a b : Char) (h : DigitRun 2 [a, b]) :
    a.isDigit = true ∧ b.isDigit = true :=
  ⟨h.2 a (by simp), h.2 b (by simp)⟩

theorem DigitRun4_facts (a b c d : Char) (h : DigitRun 4 [a, b, c, d]) :
    a.isDigit = true ∧ b.isDigit = true ∧ c.isDigit = true ∧ d.isDigit = true :=
  ⟨h.2 a (by simp), h.2 b (by simp), h.2 c (by simp), h.2 d (by simp)⟩

theorem BareDate_length (v : List Char) (h : BareDate v) : v.length = 10 := by
  obtain ⟨y, mo, d, hy, hmo, hd, rfl⟩ := h
  simp [hy.1, hmo.1, hd.1]

theorem BareDate_chars (v : List Char) (h : BareDate v) :
    ∀ c ∈ v, c.isDigit = true ∨ c = '-' := by
  obtain ⟨y, mo, d, hy, hmo, hd, rfl⟩ := h
  intro c hc
  rcases List.mem_append.mp hc with hc2 | hc2
  · rcases List.mem_append.mp hc2 with hc3 | hc3
    · exact Or.inl (hy.2 c hc3)
    · rcases List.mem_cons.mp hc3 with rfl | hc4
      · exact Or.inr rfl
      · exact Or.inl (hmo.2 c hc4)
  · rcases List.mem_cons.mp hc2 with rfl | hc3
    · exact Or.inr rfl
    · exact Or.inl (hd.2 c hc3)

theorem FracPart_chars (f : List Char) (h : FracPart f) :
    ∀ c ∈ f, c.isDigit = true ∨ c = '.' := by
  rcases h with rfl | ⟨ds, _, hdig, rfl⟩
  · simp
  · intro c hc
    rcases List.mem_cons.mp hc with rfl | hc2
    · exact Or.inr rfl
    · exact Or.inl (hdig c hc2)

theorem TimeSec_chars (t : List Char) (h : TimeSec t) :
    ∀ c ∈ t, c.isDigit = true ∨ c = ':' ∨ c = '.' := by
  obtain ⟨hh, n, sec, f, h1, h2, h3, hf, rfl⟩ := h
  intro c hc
  rcases List.mem_append.mp hc with hc2 | hc2
  · rcases List.mem_append.mp hc2 with hc3 | hc3
    · rcases List.mem_append.mp hc3 with hc4 | hc4
      · exact Or.inl (h1.2 c hc4)
      · rcases List.mem_cons.mp hc4 with rfl | hc5
        · exact Or.inr (Or.inl rfl)
        · exact Or.inl (h2.2 c hc5)
    · rcases List.mem_cons.mp hc3 with rfl | hc4
      · exact Or.inr (Or.inl rfl)
      · exact Or.inl (h3.2 c hc4)
  · rcases FracPart_chars f hf c hc2 with hd | hd
    · exact Or.inl hd
    · exact Or.inr (Or.inr hd)

theorem TimeMin_chars (t : List Char) (h : TimeMin t) :
    ∀ c ∈ t, c.isDigit = true ∨ c = ':' := by
  obtain ⟨hh, n, h1, h2, rfl⟩ := h
  intro c hc
  rcases List.mem_append.mp hc with hc2 | hc2
  · exact Or.inl (h1.2 c hc2)
  · rcases List.mem_cons.mp hc2 with rfl | hc3
    · exact Or.inr rfl
    · exact Or.inl (h2.2 c hc3)

theorem TimeSec_length (t : List Char) (h : TimeSec t) : 8 ≤ t.length := by
  obtain ⟨hh, n, sec, f, h1, h2, h3, _, rfl⟩ := h
  simp only [List.length_append, List.length_cons, h1.1, h2.1, h3.1]
  omega

theorem TimeMin_length (t : List Char) (h : TimeMin t) : t.length = 5 := by
  obtain ⟨hh, n, h1, h2, rfl⟩ := h
  simp [h1.1, h2.1]

theorem TimeSec_last (t : List Char) (h : TimeSec t) :
    ∃ c, t.getLast? = some c ∧ c.isDigit = true := by
  obtain ⟨hh, n, sec, f, h1, h2, h3, hf, rfl⟩ := h
  obtain ⟨e1, e2, rfl⟩ := len2_exists hh h1.1
  obtain ⟨g1, g2, rfl⟩ := len2_exists n h2.1
  obtain ⟨k1, k2, rfl⟩ := len2_exists sec h3.1
  rcases hf with rfl | ⟨ds, hdne, hdig, rfl⟩
  · refine ⟨k2, ?_, (DigitRun2_facts k1 k2 h3).2⟩
    simp only [List.cons_append, List.nil_append, List.append_nil]
    simp [List.getLast?_cons_cons]
  · obtain ⟨c, hc, hcm⟩ := getLast?_mem_self ds hdne
    refine ⟨c, ?_, hdig c hcm⟩
    simp only [List.cons_append, List.nil_append]
    rw [List.getLast?_cons_cons, List.getLast?_cons_cons, List.getLast?_cons_cons,
      List.getLast?_cons_cons, List.getLast?_cons_cons, List.getLast?_cons_cons,
      List.getLast?_cons_cons, getLast?_cons_ne_nil _ _ (by simp),
      getLast?_cons_ne_nil _ _ hdne]
    exact hc

theorem TimeMin_last (t : List Char) (h : TimeMin t) :
    ∃ c, t.getLast? = some c ∧ c.isDigit = true := by
  obtain ⟨hh, n, h1, h2, rfl⟩ := h
  obtain ⟨e1, e2, rfl⟩ := len2_exists hh h1.1
  obtain ⟨g1, g2, rfl⟩ := len2_exists n h2.1
  refine ⟨g2, ?_, (DigitRun2_facts g1 g2 h2).2⟩
  simp only [List.cons_append, List.nil_append]
  simp [List.getLast?_cons_cons]

theorem endsZ_false_of_last_digit (l : List Char) (c : Char) (h : l.getLast? = some c)
    (hc : c.isDigit = true) : endsZ l = false := by
  unfold endsZ
  rw [h]
  exact isDigit_zChar_false c hc

/-! ### Matcher length lemmas -/

theorem dtSecM_length (sep : Char → Bool) (v : List Char) (h : dtSecM sep v = true) :
    19 ≤ v.length := by
  unfold dtSecM at h
  split at h
  case _ y1 y2 y3 y4 h1 m1 m2 h2 d1 d2 s o1 o2 c1 n1 n2 c2 p1 p2 rest => simp
  case _ => exact absurd h (by simp)

theorem dateOnlyM_length (v : List Char) (h : dateOnlyM v = true) : v.length = 10 := by
  unfold dateOnlyM at h
  split at h
  case _ => simp
  case _ => exact absurd h (by simp)

theorem dtMinM_length (sep : Char → Bool) (v : List Char) (h : dtMinM sep v = true) :
    v.length = 16 := by
  unfold dtMinM at h
  split at h
  case _ => simp
  case _ => exact absurd h (by simp)

theorem getLast?_append_cons (d : List Char) (s : Char) (t : List Char) :
    (d ++ s :: t).getLast? = (s :: t).getLast? := by
  rw [List.getLast?_append]
  obtain ⟨c, hc, _⟩ := getLast?_mem_self (s :: t) (by simp)
  rw [hc]
  rfl

/-- On every supported shape the normalizer's output carries an explicit
trailing timezone marker. -/
theorem toIso8601ZL_marker (v : List Char) (h : SupportedShape v) :
    endsZ (toIso8601ZL v) = true ∨ endsOffset (toIso8601ZL v) = true := by
  rcases h with hbd | ⟨d, t, hd, ht, rfl⟩ | ⟨d, t, sep, hd, ht, hsep, rfl⟩ |
    ⟨d, t, hd, ht, rfl⟩ | ⟨d, t, sep, hd, ht, hsep, rfl⟩ | ⟨hne, hmk⟩
  · -- bare date
    obtain ⟨y, mo, dd, hy, hmo, hdd, rfl⟩ := hbd
    have hbd2 : BareDate (y ++ '-' :: mo ++ '-' :: dd) := ⟨y, mo, dd, hy, hmo, hdd, rfl⟩
    obtain ⟨a1, a2, a3, a4, rfl⟩ := len4_exists y hy.1
    obtain ⟨b1, b2, rfl⟩ := len2_exists mo hmo.1
    obtain ⟨c1, c2, rfl⟩ := len2_exists dd hdd.1
    obtain ⟨ha1, ha2, ha3, ha4⟩ := DigitRun4_facts _ _ _ _ hy
    obtain ⟨hb1, hb2⟩ := DigitRun2_facts _ _ hmo
    obtain ⟨hd1, hd2⟩ := DigitRun2_facts _ _ hdd
    have hti : hasTi ([a1, a2, a3, a4] ++ '-' :: [b1, b2] ++ '-' :: [c1, c2]) = false := by
      refine List.any_eq_false.mpr fun c hc => ?_
      rcases BareDate_chars _ hbd2 c hc with hdg | rfl
      · simp [isDigit_isTt_false c hdg]
      · decide
    unfold toIso8601ZL
    split_ifs with h1 h2 h3 h4 h5 h6
    · rw [hti] at h1
      simp at h1
    · have h19 := dtSecM_length _ _ h2
      have h10 := BareDate_length _ hbd2
      exact absurd h19 (by omega)
    · exact Or.inl (endsZ_append _ _ (by decide))
    · have h19 := dtSecM_length _ _ h4
      have h10 := BareDate_length _ hbd2
      exact absurd h19 (by omega)
    · have h16 := dtMinM_length _ _ h5
      have h10 := BareDate_length _ hbd2
      exact absurd h16 (by omega)
    · have h16 := dtMinM_length _ _ h6
      have h10 := BareDate_length _ hbd2
      exact absurd h16 (by omega)
    · refine absurd ?_ h3
      simp only [List.cons_append, List.nil_append]
      simp [dateOnlyM, ha1, ha2, ha3, ha4, hb1, hb2, hd1, hd2]
  · -- space-separated date-time with seconds
    have hbd2 := hd
    have hts2 := ht
    obtain ⟨y, mo, dd, hy, hmo, hdd, rfl⟩ := hd
    obtain ⟨hh, n, sec, f, hhr, hnr, hsr, hf, rfl⟩ := ht
    obtain ⟨a1, a2, a3, a4, rfl⟩ := len4_exists y hy.1
    obtain ⟨b1, b2, rfl⟩ := len2_exists mo hmo.1
    obtain ⟨c1, c2, rfl⟩ := len2_exists dd hdd.1
    obtain ⟨e1, e2, rfl⟩ := len2_exists hh hhr.1
    obtain ⟨g1, g2, rfl⟩ := len2_exists n hnr.1
    obtain ⟨k1, k2, rfl⟩ := len2_exists sec hsr.1
    obtain ⟨ha1, ha2, ha3, ha4⟩ := DigitRun4_facts _ _ _ _ hy
    obtain ⟨hb1, hb2⟩ := DigitRun2_facts _ _ hmo
    obtain ⟨hd1, hd2⟩ := DigitRun2_facts _ _ hdd
    obtain ⟨he1, he2⟩ := DigitRun2_facts _ _ hhr
    obtain ⟨hg1, hg2⟩ := DigitRun2_facts _ _ hnr
    obtain ⟨hk1, hk2⟩ := DigitRun2_facts _ _ hsr
    have hti : hasTi (([a1, a2, a3, a4] ++ '-' :: [b1, b2] ++ '-' :: [c1, c2]) ++
        ' ' :: ([e1, e2] ++ ':' :: [g1, g2] ++ ':' :: [k1, k2] ++ f)) = false := by
      refine List.any_eq_false.mpr fun c hc => ?_
      rcases List.mem_append.mp hc with hc2 | hc2
      · rcases BareDate_chars _ hbd2 c hc2 with hdg | rfl
        · simp [isDigit_isTt_false c hdg]
        · decide
      · rcases List.mem_cons.mp hc2 with rfl | hc3
        · decide
        · rcases TimeSec_chars _ hts2 c hc3 with hdg | rfl | rfl
          · simp [isDigit_isTt_false c hdg]
          · decide
          · decide
    unfold toIso8601ZL
    split_ifs with h1 h2 h3 h4 h5 h6
    · rw [hti] at h1
      simp at h1
    · exact Or.inl (endsZ_append _ _ (by decide))
    · have h10 := dateOnlyM_length _ h3
      have ht8 := TimeSec_length _ hts2
      rw [List.length_append, List.length_cons] at h10
      have hd10 := BareDate_length _ hbd2
      exact absurd h10 (by omega)
    · obtain ⟨c, hcm, hcs⟩ := dtSecM_sep_mem isTt _ h4
      exact absurd (hasTi_of_mem _ c hcm hcs) (by rw [hti]; simp)
    · have h16 := dtMinM_length _ _ h5
      have ht8 := TimeSec_length _ hts2
      rw [List.length_append, List.length_cons] at h16
      have hd10 := BareDate_length _ hbd2
      exact absurd h16 (by omega)
    · have h16 := dtMinM_length _ _ h6
      have ht8 := TimeSec_length _ hts2
      rw [List.length_append, List.length_cons] at h16
      have hd10 := BareDate_length _ hbd2
      exact absurd h16 (by omega)
    · refine absurd ?_ h2
      simp only [List.cons_append, List.nil_append]
      simp [dtSecM, spaceSep, ha1, ha2, ha3, ha4, hb1, hb2, hd1, hd2, he1, he2,
        hg1, hg2, hk1, hk2, fracM_of_FracPart f hf]
  · -- T-separated date-time with seconds
    have hbd2 := hd
    have hts2 := ht
    have hsepd : sep = 't' ∨ sep = 'T' := by simpa [isTt] using hsep
    have hz : endsZ (d ++ sep :: t) = false := by
      obtain ⟨c, hc, hcd⟩ := TimeSec_last t hts2
      refine endsZ_false_of_last_digit _ c ?_ hcd
      rw [getLast?_append_cons]
      rw [getLast?_cons_ne_nil _ _ ?_]
      · exact hc
      · intro htnil
        have := TimeSec_length t hts2
        rw [htnil] at this
        simp at this
    have hoff : endsOffset (d ++ sep :: t) = false := by
      refine Bool.eq_false_iff.mpr fun hoffT => ?_
      obtain ⟨c, hcmem, hcsign⟩ := endsOffset_sign_mem _ hoffT
      have hd10 := BareDate_length _ hbd2
      have ht8 := TimeSec_length _ hts2
      have hmem2 : c ∈ sep :: t := by
        refine mem_drop_append d (sep :: t) _ ?_ c hcmem
        rw [List.length_append, List.length_cons]
        omega
      rcases List.mem_cons.mp hmem2 with rfl | hct
      · rcases hsepd with rfl | rfl <;> exact absurd hcsign (by decide)
      · rcases TimeSec_chars _ hts2 c hct with hdg | rfl | rfl
        · rw [isDigit_isSign_false c hdg] at hcsign
          exact absurd hcsign (by simp)
        · exact absurd hcsign (by decide)
        · exact absurd hcsign (by decide)
    obtain ⟨y, mo, dd, hy, hmo, hdd, rfl⟩ := hd
    obtain ⟨hh, n, sec, f, hhr, hnr, hsr, hf, rfl⟩ := ht
    obtain ⟨a1, a2, a3, a4, rfl⟩ := len4_exists y hy.1
    obtain ⟨b1, b2, rfl⟩ := len2_exists mo hmo.1
    obtain ⟨c1, c2, rfl⟩ := len2_exists dd hdd.1
    obtain ⟨e1, e2, rfl⟩ := len2_exists hh hhr.1
    obtain ⟨g1, g2, rfl⟩ := len2_exists n hnr.1
    obtain ⟨k1, k2, rfl⟩ := len2_exists sec hsr.1
    obtain ⟨ha1, ha2, ha3, ha4⟩ := DigitRun4_facts _ _ _ _ hy
    obtain ⟨hb1, hb2⟩ := DigitRun2_facts _ _ hmo
    obtain ⟨hd1, hd2⟩ := DigitRun2_facts _ _ hdd
    obtain ⟨he1, he2⟩ := DigitRun2_facts _ _ hhr
    obtain ⟨hg1, hg2⟩ := DigitRun2_facts _ _ hnr
    obtain ⟨hk1, hk2⟩ := DigitRun2_facts _ _ hsr
    have hss : spaceSep sep = false := by
      rcases hsepd with rfl | rfl <;> decide
    unfold toIso8601ZL
    split_ifs with h1 h2 h3 h4 h5 h6
    · rw [hz, hoff] at h1
      simp at h1
    · obtain ⟨c, hcm, hcs⟩ := dtSecM_sep_mem spaceSep _ h2
      have hcsp : c = ' ' := by simpa [spaceSep] using hcs
      subst hcsp
      rcases List.mem_append.mp hcm with hc2 | hc2
      · rcases BareDate_chars _ hbd2 ' ' hc2 with hdg | habs
        · exact absurd hdg (by decide)
        · exact absurd habs (by decide)
      · rcases List.mem_cons.mp hc2 with habs | hc3
        · rcases hsepd with rfl | rfl <;> simp at habs
        · rcases TimeSec_chars _ hts2 ' ' hc3 with hdg | habs | habs
          · exact absurd hdg (by decide)
          · exact absurd habs (by decide)
          · exact absurd habs (by decide)
    · have h10 := dateOnlyM_length _ h3
      have ht8 := TimeSec_length _ hts2
      rw [List.length_append, List.length_cons] at h10
      have hd10 := BareDate_length _ hbd2
      exact absurd h10 (by omega)
    · exact Or.inl (endsZ_append _ _ (by decide))
    · have h16 := dtMinM_length _ _ h5
      have ht8 := TimeSec_length _ hts2
      rw [List.length_append, List.length_cons] at h16
      have hd10 := BareDate_length _ hbd2
      exact absurd h16 (by omega)
    · have h16 := dtMinM_length _ _ h6
      have ht8 := TimeSec_length _ hts2
      rw [List.length_append, List.length_cons] at h16
      have hd10 := BareDate_length _ hbd2
      exact absurd h16 (by omega)
    · refine absurd ?_ h4
      simp only [List.cons_append, List.nil_append]
      simp [dtSecM, hsep, ha1, ha2, ha3, ha4, hb1, hb2, hd1, hd2, he1, he2,
        hg1, hg2, hk1, hk2, fracM_of_FracPart f hf]
  · -- space-separated date-time without seconds
    have hbd2 := hd
    have htm2 := ht
    obtain ⟨y, mo, dd, hy, hmo, hdd, rfl⟩ := hd
    obtain ⟨hh, n, hhr, hnr, rfl⟩ := ht
    obtain ⟨a1, a2, a3, a4, rfl⟩ := len4_exists y hy.1
    obtain ⟨b1, b2, rfl⟩ := len2_exists mo hmo.1
    obtain ⟨c1, c2, rfl⟩ := len2_exists dd hdd.1
    obtain ⟨e1, e2, rfl⟩ := len2_exists hh hhr.1
    obtain ⟨g1, g2, rfl⟩ := len2_exists n hnr.1
    obtain ⟨ha1, ha2, ha3, ha4⟩ := DigitRun4_facts _ _ _ _ hy
    obtain ⟨hb1, hb2⟩ := DigitRun2_facts _ _ hmo
    obtain ⟨hd1, hd2⟩ := DigitRun2_facts _ _ hdd
    obtain ⟨he1, he2⟩ := DigitRun2_facts _ _ hhr
    obtain ⟨hg1, hg2⟩ := DigitRun2_facts _ _ hnr
    have hti : hasTi (([a1, a2, a3, a4] ++ '-' :: [b1, b2] ++ '-' :: [c1, c2]) ++
        ' ' :: ([e1, e2] ++ ':' :: [g1, g2])) = false := by
      refine List.any_eq_false.mpr fun c hc => ?_
      rcases List.mem_append.mp hc with hc2 | hc2
      · rcases BareDate_chars _ hbd2 c hc2 with hdg | rfl
        · simp [isDigit_isTt_false c hdg]
        · decide
      · rcases List.mem_cons.mp hc2 with rfl | hc3
        · decide
        · rcases TimeMin_chars _ htm2 c hc3 with hdg | rfl
          · simp [isDigit_isTt_false c hdg]
          · decide
    unfold toIso8601ZL
    split_ifs with h1 h2 h3 h4 h5 h6
    · rw [hti] at h1
      simp at h1
    · have h19 := dtSecM_length _ _ h2
      have ht5 := TimeMin_length _ htm2
      rw [List.length_append, List.length_cons] at h19
      have hd10 := BareDate_length _ hbd2
      exact absurd h19 (by omega)
    · have h10 := dateOnlyM_length _ h3
      have ht5 := TimeMin_length _ htm2
      rw [List.length_append, List.length_cons] at h10
      have hd10 := BareDate_length _ hbd2
      exact absurd h10 (by omega)
    · have h19 := dtSecM_length _ _ h4
      have ht5 := TimeMin_length _ htm2
      rw [List.length_append, List.length_cons] at h19
      have hd10 := BareDate_length _ hbd2
      exact absurd h19 (by omega)
    · exact Or.inl (endsZ_append _ _ (by decide))
    · obtain ⟨c, hcm, hcs⟩ := dtMinM_sep_mem isTt _ h6
      exact absurd (hasTi_of_mem _ c hcm hcs) (by rw [hti]; simp)
    · refine absurd ?_ h5
      simp only [List.cons_append, List.nil_append]
      simp [dtMinM, spaceSep, ha1, ha2, ha3, ha4, hb1, hb2, hd1, hd2, he1, he2,
        hg1, hg2]
  · -- T-separated date-time without seconds
    have hbd2 := hd
    have htm2 := ht
    have hsepd : sep = 't' ∨ sep = 'T' := by simpa [isTt] using hsep
    have hz : endsZ (d ++ sep :: t) = false := by
      obtain ⟨c, hc, hcd⟩ := TimeMin_last t htm2
      refine endsZ_false_of_last_digit _ c ?_ hcd
      rw [getLast?_append_cons]
      rw [getLast?_cons_ne_nil _ _ ?_]
      · exact hc
      · intro htnil
        have := TimeMin_length t htm2
        rw [htnil] at this
        simp at this
    have hoff : endsOffset (d ++ sep :: t) = false := by
      refine Bool.eq_false_iff.mpr fun hoffT => ?_
      obtain ⟨c, hcmem, hcsign⟩ := endsOffset_sign_mem _ hoffT
      have hd10 := BareDate_length _ hbd2
      have ht5 := TimeMin_length _ htm2
      have hmem2 : c ∈ sep :: t := by
        refine mem_drop_append d (sep :: t) _ ?_ c hcmem
        rw [List.length_append, List.length_cons]
        omega
      rcases List.mem_cons.mp hmem2 with rfl | hct
      · rcases hsepd with rfl | rfl <;> exact absurd hcsign (by decide)
      · rcases TimeMin_chars _ htm2 c hct with hdg | rfl
        · rw [isDigit_isSign_false c hdg] at hcsign
          exact absurd hcsign (by simp)
        · exact absurd hcsign (by decide)
    obtain ⟨y, mo, dd, hy, hmo, hdd, rfl⟩ := hd
    obtain ⟨hh, n, hhr, hnr, rfl⟩ := ht
    obtain ⟨a1, a2, a3, a4, rfl⟩ := len4_exists y hy.1
    obtain ⟨b1, b2, rfl⟩ := len2_exists mo hmo.1
    obtain ⟨c1, c2, rfl⟩ := len2_exists dd hdd.1
    obtain ⟨e1, e2, rfl⟩ := len2_exists hh hhr.1
    obtain ⟨g1, g2, rfl⟩ := len2_exists n hnr.1
    obtain ⟨ha1, ha2, ha3, ha4⟩ := DigitRun4_facts _ _ _ _ hy
    obtain ⟨hb1, hb2⟩ := DigitRun2_facts _ _ hmo
    obtain ⟨hd1, hd2⟩ := DigitRun2_facts _ _ hdd
    obtain ⟨he1, he2⟩ := DigitRun2_facts _ _ hhr
    obtain ⟨hg1, hg2⟩ := DigitRun2_facts _ _ hnr
    have hss : spaceSep sep = false := by
      rcases hsepd with rfl | rfl <;> decide
    unfold toIso8601ZL
    split_ifs with h1 h2 h3 h4 h5 h6
    · rw [hz, hoff] at h1
      simp at h1
    · have h19 := dtSecM_length _ _ h2
      have ht5 := TimeMin_length _ htm2
      rw [List.length_append, List.length_cons] at h19
      have hd10 := BareDate_length _ hbd2
      exact absurd h19 (by omega)
    · have h10 := dateOnlyM_length _ h3
      have ht5 := TimeMin_length _ htm2
      rw [List.length_append, List.length_cons] at h10
      have hd10 := BareDate_length _ hbd2
      exact absurd h10 (by omega)
    · have h19 := dtSecM_length _ _ h4
      have ht5 := TimeMin_length _ htm2
      rw [List.length_append, List.length_cons] at h19
      have hd10 := BareDate_length _ hbd2
      exact absurd h19 (by omega)
    · obtain ⟨c, hcm, hcs⟩ := dtMinM_sep_mem spaceSep _ h5
      have hcsp : c = ' ' := by simpa [spaceSep] using hcs
      subst hcsp
      rcases List.mem_append.mp hcm with hc2 | hc2
      · rcases BareDate_chars _ hbd2 ' ' hc2 with hdg | habs
        · exact absurd hdg (by decide)
        · exact absurd habs (by decide)
      · rcases List.mem_cons.mp hc2 with habs | hc3
        · rcases hsepd with rfl | rfl <;> simp at habs
        · rcases TimeMin_chars _ htm2 ' ' hc3 with hdg | habs
          · exact absurd hdg (by decide)
          · exact absurd habs (by decide)
    · exact Or.inl (endsZ_append _ _ (by decide))
    · refine absurd ?_ h6
      simp only [List.cons_append, List.nil_append]
      simp [dtMinM, hsep, ha1, ha2, ha3, ha4, hb1, hb2, hd1, hd2, he1, he2, hg1, hg2]
  · -- already carrying a timezone marker
    rcases toIso8601ZL_cases v with hcase | ⟨_, hz2⟩
    · rw [hcase]
      exact hmk
    · exact Or.inl hz2

/-- C4: for every supported timestamp shape — bare date, space- or
T-separated date-time with or without seconds, or a value already
carrying a timezone marker — the normalizer is idempotent (applying it
twice yields the same string as applying it once; this in fact holds for
every input) and its output ends in an explicit UTC `Z` or a numeric
offset marker. -/
theorem toIso8601Z_idempotent_marker :
    (∀ s : String, (toIso8601Z s).bind toIso8601Z = toIso8601Z s) ∧
    (∀ (s w : String), SupportedShape (jsTrimL s.data) → toIso8601Z s = some w →
      endsZ w.data = true ∨ endsOffset w.data = true) := by
  refine ⟨toIso8601Z_bind_idem, fun s w hshape hw => ?_⟩
  unfold toIso8601Z at hw
  by_cases hv : jsTrimL s.data = []
  · simp [hv] at hw
  · simp only [hv, if_false] at hw
    obtain rfl : w = String.mk (toIso8601ZL (jsTrimL s.data)) := (Option.some.inj hw).symm
    rw [show (String.mk (toIso8601ZL (jsTrimL s.data))).data =
      toIso8601ZL (jsTrimL s.data) from rfl]
    exact toIso8601ZL_marker _ hshape

/-- C4 (witness): the bare date 2024-01-02, normalized to
2024-01-02T00:00:00Z, through `toIso8601Z_idempotent_marker` with the
shape and evaluation hypotheses discharged concretely. -/
theorem toIso8601Z_idempotent_marker_witness :
    endsZ "2024-01-02T00:00:00Z".data = true ∨
      endsOffset "2024-01-02T00:00:00Z".data = true :=
  toIso8601Z_idempotent_marker.2 "2024-01-02" "2024-01-02T00:00:00Z"
    (Or.inl ⟨['2', '0', '2', '4'], ['0', '1'], ['0', '2'],
      ⟨by decide, by decide⟩, ⟨by decide, by decide⟩, ⟨by decide, by decide⟩, by decide⟩)
    (by decide)

end CeScripts

